import Mathlib

/-!
Verification of the RAG retrieval subsystem of the AI-Chatbot repository.

The Python sources under `src/` are shallowly embedded:

* `src/rag/vector_store.py`   — per-tenant vector index (`VectorStore`):
  the FAISS `IndexFlatIP` of a tenant is modelled as a `List V` of embedding
  vectors (FAISS flat indices support exactly append, positional
  `reconstruct`, and nearest-neighbour search, so a positional list is a
  faithful model); the parallel Python metadata list is a `List ChunkMeta`.
  The sentence-transformer encoder is an arbitrary deterministic function
  `embed : String → V`.  The output of a FAISS nearest-neighbour query
  (`index.search(...)` returning score/index arrays) is passed in as an
  explicit `neighbors : List (ℚ × Int)` argument, since it depends on
  float geometry; every theorem below quantifies over it.
* `src/rag/document_processor.py` — chunking and text extraction.
* `src/rag/retriever.py` and `src/storage/tenant_manager.py` — deletion
  orchestration and the tenant document catalog (the filesystem is
  modelled as the set of existing paths).
* `src/controller/agent_controller.py` — confidence routing.

Python floats that only ever get added/multiplied/compared are modelled
as rationals `ℚ`; Python dicts keyed by strings are association lists.
-/

namespace AIChatbot

/-- Values that occur in a chunk's nested per-chunk metadata map
(`DocumentProcessor._create_chunks` stores strings and ints there). -/
inductive MVal where
  | s (v : String)
  | n (v : Int)
deriving DecidableEq, Repr

/-- Top-level Python values a metadata filter can be compared against:
the fields of a search-result dict are strings, the nested metadata
dict, and the float score (`VectorStore.search` result construction). -/
inductive PyVal where
  | str (v : String)
  | num (v : ℚ)
  | dict (m : List (String × MVal))
deriving DecidableEq, Repr

/-- `DocumentChunk` dataclass from `src/rag/document_processor.py`. -/
structure DocumentChunk where
  content : String
  metadata : List (String × MVal)
  chunkId : String
  source : String
  pageNumber : Nat
  chunkIndex : Nat
deriving DecidableEq, Repr

/-- One entry of a tenant's metadata list, as built in
`VectorStore.add_documents` (the dict with keys
`chunk_id`, `content`, `source`, `metadata`). -/
structure ChunkMeta where
  chunkId : String
  content : String
  source : String
  metadata : List (String × MVal)
deriving DecidableEq, Repr

/-- The metadata dict `add_documents` appends for a chunk. -/
def DocumentChunk.toMeta (c : DocumentChunk) : ChunkMeta :=
  ⟨c.chunkId, c.content, c.source, c.metadata⟩

/-- One tenant's state: the FAISS index (list of vectors, positional)
and the parallel metadata list.  The two Python dicts
`tenant_indices` / `tenant_metadata` are populated and cleared together
on every code path, so they are modelled as a single map to this pair. -/
structure TenantState (V : Type) where
  index : List V
  metadata : List ChunkMeta
deriving DecidableEq, Repr

/-- Whole `VectorStore` state.  `modelAvailable` is whether
`self.embedding_model` loaded (the `except` branch of `__init__`
sets it to `None`). -/
structure VectorStore (V : Type) where
  modelAvailable : Bool
  tenants : List (String × TenantState V)
deriving DecidableEq, Repr

/-- Python dict lookup over an association list. -/
def lookupA {β : Type _} (m : List (String × β)) (k : String) : Option β :=
  (m.find? (fun p => p.1 == k)).map (·.2)

/-- Python dict assignment `d[k] = v` over an association list: the
first binding of `k` is replaced in place, a new key is appended at
the end (Python dicts preserve insertion order). -/
def insertA {β : Type _} : List (String × β) → String → β → List (String × β)
  | [], k, v => [(k, v)]
  | p :: t, k, v => if p.1 == k then (k, v) :: t else p :: insertA t k v

/-- `VectorStore._remove_documents_by_filename`, acting on one tenant's
state (the tenant-present case).  Walks the metadata with positions
(`enumerate`), keeps entries whose `source` differs from `filename`,
returns unchanged when nothing matched, resets to an empty index when
nothing is kept, and otherwise rebuilds the index from the kept
positions (`reconstruct(idx)`, which fails — and is skipped — exactly
when `idx` is out of range, i.e. `List.get?` returns `none`). -/
def removeByFilename {V : Type} (st : TenantState V) (filename : String) :
    TenantState V :=
  let keep := st.metadata.enum.filter (fun p => p.2.source ≠ filename)
  if keep.length = st.metadata.length then st
  else if keep.length = 0 then ⟨[], []⟩
  else ⟨keep.filterMap (fun p => st.index[p.1]?), keep.map (·.2)⟩

/-- `VectorStore._remove_documents_by_filename` at store level: returns
`True` immediately when the tenant is unknown; the pure embedding has
no failing branch, so the returned boolean is always `true`. -/
def VectorStore.removeDocumentsByFilename {V : Type} (vs : VectorStore V)
    (filename tenantId : String) : VectorStore V × Bool :=
  match lookupA vs.tenants tenantId with
  | none => (vs, true)
  | some st =>
      ({ vs with tenants := insertA vs.tenants tenantId (removeByFilename st filename) },
       true)

/-- `VectorStore.add_documents`: fails (returning the state unchanged)
when the embedding model is missing or the chunk list is empty; creates
the tenant lazily; under `clear_all` wipes the tenant, under
`replace_existing` first removes entries sharing `chunks[0].source`;
then appends the embeddings of all chunk contents to the index and the
corresponding metadata dicts to the metadata list. -/
def VectorStore.addDocuments {V : Type} (embed : String → V) (vs : VectorStore V)
    (chunks : List DocumentChunk) (tenantId : String)
    (replaceExisting clearAll : Bool) : VectorStore V × Bool :=
  if vs.modelAvailable = false ∨ chunks = [] then (vs, false)
  else
    let st0 := (lookupA vs.tenants tenantId).getD ⟨[], []⟩
    let st1 :=
      if clearAll then (⟨[], []⟩ : TenantState V)
      else
        match chunks with
        | [] => st0
        | c :: _ => if replaceExisting then removeByFilename st0 c.source else st0
    let st2 : TenantState V :=
      ⟨st1.index ++ chunks.map (fun c => embed c.content),
       st1.metadata ++ chunks.map DocumentChunk.toMeta⟩
    ({ vs with tenants := insertA vs.tenants tenantId st2 }, true)

/-- A search result dict (`VectorStore.search` result construction:
the metadata entry's fields plus the float similarity score). -/
structure SearchResult where
  chunkId : String
  content : String
  source : String
  metadata : List (String × MVal)
  score : ℚ
deriving DecidableEq, Repr

/-- A metadata-filter value: either a single value (exact match) or a
Python list (membership match), as distinguished by `isinstance(value, list)`
in `VectorStore._matches_filter`. -/
inductive FilterVal where
  | one (v : PyVal)
  | many (vs : List PyVal)
deriving DecidableEq, Repr

/-- Lookup of a key in the *top-level* result dict that
`VectorStore.search` builds: exactly the keys `chunk_id`, `content`,
`source`, `metadata` and `score` exist; any other key is absent. -/
def resultLookup (r : SearchResult) (key : String) : Option PyVal :=
  if key = "chunk_id" then some (.str r.chunkId)
  else if key = "content" then some (.str r.content)
  else if key = "source" then some (.str r.source)
  else if key = "metadata" then some (.dict r.metadata)
  else if key = "score" then some (.num r.score)
  else none

/-- `VectorStore._matches_filter`: every filter key must be present in
the (top-level) result dict and its value must equal the filter value,
or be a member of it when the filter value is a list. -/
def matchesFilter (r : SearchResult) (filt : List (String × FilterVal)) : Bool :=
  filt.all fun kv =>
    match resultLookup r kv.1 with
    | none => false
    | some v =>
        match kv.2 with
        | .one w => v = w
        | .many ws => v ∈ ws

/-- The result dict `VectorStore.search` builds for a hit:
`{**tenant_metadata[idx], "score": float(score)}`. -/
def mkResult (m : ChunkMeta) (score : ℚ) : SearchResult :=
  ⟨m.chunkId, m.content, m.source, m.metadata, score⟩

/-- The body of the accumulation: append the result when there is no
filter or it matches the filter. -/
def appendIfMatches (filt : Option (List (String × FilterVal)))
    (acc : List SearchResult) (r : SearchResult) : List SearchResult :=
  match filt with
  | some f => if matchesFilter r f then acc ++ [r] else acc
  | none => acc ++ [r]

/-- The accumulation loop of `VectorStore.search`: for each
(score, idx) neighbour, indices out of `[0, len(metadata))` are
skipped; valid hits are turned into result dicts, appended when they
pass the optional filter, and the loop breaks once `k` results are
collected (the break test runs after every valid hit, appended or not). -/
def searchGo (meta : List ChunkMeta) (filt : Option (List (String × FilterVal)))
    (k : Nat) : List (ℚ × Int) → List SearchResult → List SearchResult
  | [], acc => acc
  | (score, idx) :: rest, acc =>
      if h : 0 ≤ idx ∧ idx.toNat < meta.length then
        let acc' := appendIfMatches filt acc (mkResult (meta.get ⟨idx.toNat, h.2⟩) score)
        if k ≤ acc'.length then acc'
        else searchGo meta filt k rest acc'
      else searchGo meta filt k rest acc

/-- `VectorStore.search`.  The query string only feeds the embedding
model, whose nearest-neighbour answer is the explicit `neighbors`
argument (the `scores[0], indices[0]` arrays zipped); everything after
that point is modelled exactly. -/
def VectorStore.search {V : Type} (vs : VectorStore V) (tenantId : String)
    (k : Nat) (filt : Option (List (String × FilterVal)))
    (neighbors : List (ℚ × Int)) : List SearchResult :=
  if vs.modelAvailable = false then []
  else
    match lookupA vs.tenants tenantId with
    | none => []
    | some st => searchGo st.metadata filt k neighbors []

/-- Whitespace splitting over a character list, accumulating the
current word in reverse: Python's argument-free `split`, which drops
empty fields between whitespace runs. -/
def splitWsAux : List Char → List Char → List (List Char)
  | [], cur => if cur = [] then [] else [cur.reverse]
  | c :: rest, cur =>
      if c.isWhitespace then
        if cur = [] then splitWsAux rest [] else cur.reverse :: splitWsAux rest []
      else splitWsAux rest (c :: cur)

/-- `s.lower().split()`: case-folded, whitespace-tokenized words
(each word a character list). -/
def pyWords (s : String) : List (List Char) :=
  splitWsAux (s.data.map Char.toLower) []

/-- `len(query_words.intersection(content_words)) / len(query_words)`
for an already-deduplicated word list `queryWords`.  Division by zero
is *not* modelled here; `hybridSearch` raises before reaching it. -/
def keywordScore (queryWords : List (List Char)) (content : String) : ℚ :=
  let contentWords := pyWords content
  ((queryWords.filter (fun w => contentWords.contains w)).length : ℚ) /
    (queryWords.length : ℚ)

/-- A result dict after `hybrid_search` added its two score fields. -/
structure HybridResult where
  base : SearchResult
  keywordScore : ℚ
  hybridScore : ℚ
deriving DecidableEq, Repr

/-- `VectorStore.hybrid_search`: semantic search for `2k` candidates,
keyword-overlap score per candidate, linear fusion, stable descending
sort (Python `list.sort(reverse=True)` is stable; `mergeSort` with the
flipped `≤` is the same stable descending order), truncation to `k`.
When the query has no words, the loop body's division raises
`ZeroDivisionError` on the first candidate — so the call raises iff
there is at least one semantic result, which the `Except` models. -/
def VectorStore.hybridSearch {V : Type} (vs : VectorStore V)
    (query tenantId : String) (k : Nat)
    (filt : Option (List (String × FilterVal))) (keywordWeight : ℚ)
    (neighbors : List (ℚ × Int)) : Except String (List HybridResult) :=
  let semanticResults := vs.search tenantId (k * 2) filt neighbors
  let queryWords := (pyWords query).dedup
  match semanticResults with
  | [] => .ok []
  | _ :: _ =>
      if queryWords.length = 0 then .error "ZeroDivisionError: division by zero"
      else
        let scored := semanticResults.map fun r =>
          let ks := keywordScore queryWords r.content
          HybridResult.mk r ks ((1 - keywordWeight) * r.score + keywordWeight * ks)
        .ok ((scored.mergeSort
          (fun a b => decide (b.hybridScore ≤ a.hybridScore))).take k)

/-- The dict returned by `VectorStore.get_tenant_stats`
(`files` is a Python `set`, modelled as a `Finset`). -/
structure TenantStats where
  documents : Nat
  chunks : Nat
  files : Finset String
deriving DecidableEq

/-- `VectorStore.get_tenant_stats`. -/
def VectorStore.getTenantStats {V : Type} (vs : VectorStore V)
    (tenantId : String) : TenantStats :=
  match lookupA vs.tenants tenantId with
  | none => ⟨0, 0, ∅⟩
  | some st =>
      let files := (st.metadata.map (·.source)).toFinset
      ⟨files.card, st.metadata.length, files⟩

/-- An arbitrary `add_documents` / `_remove_documents_by_filename`
call, for stating invariants over operation sequences. -/
inductive StoreOp where
  | add (chunks : List DocumentChunk) (tenantId : String)
      (replaceExisting clearAll : Bool)
  | removeByName (filename tenantId : String)
deriving Repr

def applyOp {V : Type} (embed : String → V) (vs : VectorStore V) :
    StoreOp → VectorStore V
  | .add chunks tid re ca => (vs.addDocuments embed chunks tid re ca).1
  | .removeByName f tid => (vs.removeDocumentsByFilename f tid).1

def applyOps {V : Type} (embed : String → V) (vs : VectorStore V)
    (ops : List StoreOp) : VectorStore V :=
  ops.foldl (applyOp embed) vs

/-- A freshly constructed `VectorStore` (no tenants yet). -/
def initialStore {V : Type} (modelAvailable : Bool) : VectorStore V :=
  ⟨modelAvailable, []⟩

/-- The alignment invariant in its strong, positional form: the index
is exactly the embedding of the metadata contents, position by
position. -/
def TenantState.canon {V : Type} (embed : String → V) (st : TenantState V) : Prop :=
  st.index = st.metadata.map (fun m => embed m.content)

def VectorStore.allCanon {V : Type} (embed : String → V) (vs : VectorStore V) : Prop :=
  ∀ tid st, lookupA vs.tenants tid = some st → st.canon embed

theorem lookupA_cons {β : Type _} (p : String × β) (t : List (String × β)) (k : String) :
    lookupA (p :: t) k = if p.1 == k then some p.2 else lookupA t k := by
  by_cases h : p.1 == k <;> simp [lookupA, List.find?, h]

theorem insertA_nil {β : Type _} (k : String) (v : β) :
    insertA ([] : List (String × β)) k v = [(k, v)] := rfl

theorem insertA_cons {β : Type _} (p : String × β) (t : List (String × β))
    (k : String) (v : β) :
    insertA (p :: t) k v = if p.1 == k then (k, v) :: t else p :: insertA t k v := rfl

theorem lookupA_insertA {β : Type _} (m : List (String × β)) (k k' : String) (v : β) :
    lookupA (insertA m k v) k' = if k' = k then some v else lookupA m k' := by
  induction m with
  | nil =>
      rw [insertA_nil, lookupA_cons]
      by_cases h : k' = k
      · subst h; simp
      · have hb : (k == k') = false := beq_eq_false_iff_ne.mpr (fun hh => h hh.symm)
        simp [h, hb, lookupA, List.find?]
  | cons p t ih =>
      rw [insertA_cons]
      by_cases hp : p.1 = k
      · have hb : (p.1 == k) = true := beq_iff_eq.mpr hp
        rw [hb]
        simp only [if_true, lookupA_cons]
        by_cases h : k' = k
        · subst h; simp
        · have hb1 : (k == k') = false := beq_eq_false_iff_ne.mpr (fun hh => h hh.symm)
          have hb2 : (p.1 == k') = false := by rw [hp]; exact hb1
          simp [h, hb1, hb2]
      · have hb : (p.1 == k) = false := beq_eq_false_iff_ne.mpr hp
        rw [hb]
        simp only [Bool.false_eq_true, if_false, lookupA_cons, ih]
        by_cases h : k' = k
        · have hb2 : (p.1 == k') = false := by
            refine beq_eq_false_iff_ne.mpr ?_
            rw [h]; exact hp
          simp only [hb2, Bool.false_eq_true, if_false]
        · by_cases hpk' : p.1 == k' <;> simp [h, hpk']

theorem filterMap_eq_map_of_mem {α β : Type _} (g : α → Option β) (hf : α → β)
    (l : List α) (H : ∀ x ∈ l, g x = some (hf x)) : l.filterMap g = l.map hf := by
  induction l with
  | nil => rfl
  | cons a t ih =>
      rw [List.filterMap_cons, H a (by simp), List.map_cons,
        ih (fun x hx => H x (by simp [hx]))]

theorem enum_filter_snd {α : Type _} (l : List α) (q : α → Bool) :
    (l.enum.filter (fun p => q p.2)).map (fun p => p.2) = l.filter q := by
  conv_rhs => rw [← List.enum_map_snd l, List.filter_map]
  rfl

/-- With the index canonically aligned, `_remove_documents_by_filename`
on a tenant's state is exactly: filter the metadata by
`source ≠ filename` and re-embed the kept contents (all three branches
of the code collapse to this one description). -/
theorem removeByFilename_eq_of_canon {V : Type} {embed : String → V}
    {st : TenantState V} (h : st.canon embed) (filename : String) :
    removeByFilename st filename =
      ⟨(st.metadata.filter (fun m => m.source ≠ filename)).map (fun m => embed m.content),
        st.metadata.filter (fun m => m.source ≠ filename)⟩ := by
  have hsnd : (st.metadata.enum.filter (fun p => p.2.source ≠ filename)).map (fun p => p.2)
      = st.metadata.filter (fun m => m.source ≠ filename) :=
    enum_filter_snd st.metadata (fun m => m.source ≠ filename)
  have hmem : ∀ p ∈ st.metadata.enum.filter (fun p => p.2.source ≠ filename),
      st.index[p.1]? = some (embed p.2.content) := by
    intro p hp
    have hp' : p ∈ st.metadata.enum := List.mem_of_mem_filter hp
    have hg : st.metadata[p.1]? = some p.2 := List.mem_enum_iff_getElem?.mp hp'
    rw [show st.index = st.metadata.map (fun m => embed m.content) from h,
      List.getElem?_map, hg]
    rfl
  have hmap : (st.metadata.enum.filter (fun p => p.2.source ≠ filename)).filterMap
        (fun p => st.index[p.1]?)
      = (st.metadata.filter (fun m => m.source ≠ filename)).map (fun m => embed m.content) := by
    rw [filterMap_eq_map_of_mem _ (fun p => embed p.2.content) _ hmem, ← hsnd, List.map_map]
    rfl
  simp only [removeByFilename]
  split_ifs with h1 h2
  · have hlenf : (st.metadata.filter (fun m => m.source ≠ filename)).length
        = st.metadata.length := by
      rw [← hsnd, List.length_map]; exact h1
    have hfil : st.metadata.filter (fun m => m.source ≠ filename) = st.metadata :=
      List.filter_eq_self.mpr (List.filter_length_eq_length.mp hlenf)
    simp only [TenantState.canon] at h
    rw [hfil, ← h]
  · have hk : st.metadata.enum.filter (fun p => p.2.source ≠ filename) = [] :=
      List.length_eq_zero.mp h2
    have hnil : st.metadata.filter (fun m => m.source ≠ filename) = [] := by
      rw [← hsnd, hk]; rfl
    rw [hnil]
    rfl
  · rw [hmap, hsnd]

theorem canon_removeByFilename {V : Type} {embed : String → V}
    {st : TenantState V} (h : st.canon embed) (f : String) :
    (removeByFilename st f).canon embed := by
  rw [removeByFilename_eq_of_canon h f]
  rfl

theorem canon_append_chunks {V : Type} {embed : String → V}
    {st : TenantState V} (h : st.canon embed) (chunks : List DocumentChunk) :
    TenantState.canon embed
      ⟨st.index ++ chunks.map (fun c => embed c.content),
        st.metadata ++ chunks.map DocumentChunk.toMeta⟩ := by
  simp only [TenantState.canon] at h ⊢
  rw [h, List.map_append, List.map_map]
  rfl

theorem allCanon_insertA {V : Type} {embed : String → V} {vs : VectorStore V}
    (h : vs.allCanon embed) {st : TenantState V} (hst : st.canon embed) (tid : String) :
    ∀ tid' st', lookupA (insertA vs.tenants tid st) tid' = some st' → st'.canon embed := by
  intro tid' st' hl
  rw [lookupA_insertA] at hl
  split_ifs at hl with h'
  · cases hl; exact hst
  · exact h _ _ hl

theorem allCanon_applyOp {V : Type} {embed : String → V} {vs : VectorStore V}
    (h : vs.allCanon embed) (op : StoreOp) : (applyOp embed vs op).allCanon embed := by
  cases op with
  | add chunks tid re ca =>
      by_cases h1 : vs.modelAvailable = false ∨ chunks = []
      · simp only [applyOp, VectorStore.addDocuments, if_pos h1]
        exact h
      · have hst0 : ((lookupA vs.tenants tid).getD ⟨[], []⟩).canon embed := by
          cases hl : lookupA vs.tenants tid with
          | none => rfl
          | some s => simpa using h _ _ hl
        cases chunks with
        | nil => exact absurd (Or.inr rfl) h1
        | cons c cs =>
            cases ca with
            | true =>
                simp only [applyOp, VectorStore.addDocuments, if_neg h1]
                exact allCanon_insertA h
                  (canon_append_chunks
                    (show TenantState.canon embed ⟨[], []⟩ from rfl) (c :: cs)) tid
            | false =>
                cases re with
                | true =>
                    simp only [applyOp, VectorStore.addDocuments, if_neg h1]
                    exact allCanon_insertA h
                      (canon_append_chunks (canon_removeByFilename hst0 c.source) (c :: cs)) tid
                | false =>
                    simp only [applyOp, VectorStore.addDocuments, if_neg h1]
                    exact allCanon_insertA h (canon_append_chunks hst0 (c :: cs)) tid
  | removeByName f tid =>
      simp only [applyOp, VectorStore.removeDocumentsByFilename]
      cases hl : lookupA vs.tenants tid with
      | none => simpa using h
      | some st =>
          simpa using allCanon_insertA h (canon_removeByFilename (h _ _ hl) f) tid

theorem allCanon_applyOps {V : Type} {embed : String → V} (vs : VectorStore V)
    (h : vs.allCanon embed) (ops : List StoreOp) :
    (applyOps embed vs ops).allCanon embed := by
  induction ops generalizing vs with
  | nil => exact h
  | cons op t ih =>
      rw [applyOps, List.foldl_cons]
      exact ih _ (allCanon_applyOp h op)

theorem allCanon_initialStore {V : Type} (embed : String → V) (ma : Bool) :
    (initialStore (V := V) ma).allCanon embed := by
  intro tid st h
  simp [initialStore, lookupA, List.find?] at h

/-- **C1**: for every tenant, after any sequence of `add_documents` and
`_remove_documents_by_filename` operations on a freshly constructed
`VectorStore` (arbitrary chunk lists, filenames, flags, and embedding
function), the tenant's index holds exactly as many vectors as its
metadata list has entries, and the vector at index position `i` is the
embedding of the metadata entry at list position `i`. -/
theorem C1_alignment_invariant (V : Type) (embed : String → V) (ma : Bool)
    (ops : List StoreOp) (tid : String) (st : TenantState V)
    (h : lookupA (applyOps embed (initialStore ma) ops).tenants tid = some st) :
    st.index.length = st.metadata.length ∧
      ∀ i : Nat, st.index[i]? = (st.metadata[i]?).map (fun m => embed m.content) := by
  have hc := allCanon_applyOps _ (allCanon_initialStore embed ma) ops tid st h
  rw [TenantState.canon] at hc
  refine ⟨by rw [hc, List.length_map], fun i => by rw [hc, List.getElem?_map]⟩

/-- Concrete chunk used by witnesses. -/
def wChunk : DocumentChunk :=
  ⟨"hello world", [("filename", .s "a.txt")], "t_a.txt_1_0", "a.txt", 1, 0⟩

/-- A concrete operation sequence: one ingestion, one deletion of an
absent filename. -/
def wOps : List StoreOp :=
  [.add [wChunk] "t" true false, .removeByName "b.txt" "t"]

theorem C1_alignment_invariant_witness :
    (lookupA (applyOps (fun s => s.length) (initialStore true) wOps).tenants "t"
        = some ⟨[11], [wChunk.toMeta]⟩) ∧
    (([11] : List Nat).length = [wChunk.toMeta].length ∧
      ∀ i : Nat, ([11] : List Nat)[i]?
        = (([wChunk.toMeta] : List ChunkMeta)[i]?).map (fun m => m.content.length)) :=
  ⟨by decide,
    C1_alignment_invariant Nat (fun s => s.length) true wOps "t" ⟨[11], [wChunk.toMeta]⟩
      (by decide)⟩

theorem mem_appendIfMatches {filt : Option (List (String × FilterVal))}
    {acc : List SearchResult} {r' r : SearchResult}
    (h : r ∈ appendIfMatches filt acc r') : r ∈ acc ∨ r = r' := by
  cases filt with
  | none => simpa [appendIfMatches] using h
  | some f =>
      by_cases hm : matchesFilter r' f
      · simpa [appendIfMatches, hm] using h
      · simp only [appendIfMatches, hm, Bool.false_eq_true, if_false] at h
        exact Or.inl h

theorem searchGo_mem {meta : List ChunkMeta}
    {filt : Option (List (String × FilterVal))} {k : Nat} :
    ∀ (neighbors : List (ℚ × Int)) (acc : List SearchResult) (r : SearchResult),
      r ∈ searchGo meta filt k neighbors acc →
      r ∈ acc ∨ ∃ m ∈ meta, r.source = m.source ∧ r.content = m.content := by
  intro neighbors
  induction neighbors with
  | nil => exact fun acc r hr => Or.inl hr
  | cons p rest ih =>
      intro acc r hr
      obtain ⟨score, idx⟩ := p
      by_cases h : 0 ≤ idx ∧ idx.toNat < meta.length
      · simp only [searchGo] at hr
        rw [dif_pos h] at hr
        have hmk : ∀ s, r = mkResult (meta.get ⟨idx.toNat, h.2⟩) s →
            ∃ m ∈ meta, r.source = m.source ∧ r.content = m.content := by
          intro s hs
          exact ⟨meta.get ⟨idx.toNat, h.2⟩, meta.get_mem _ _, by rw [hs]; exact rfl,
            by rw [hs]; exact rfl⟩
        split at hr
        · rcases mem_appendIfMatches hr with h' | h'
          · exact Or.inl h'
          · exact Or.inr (hmk _ h')
        · rcases ih _ _ hr with h' | h'
          · rcases mem_appendIfMatches h' with h'' | h''
            · exact Or.inl h''
            · exact Or.inr (hmk _ h'')
          · exact Or.inr h'
      · simp only [searchGo] at hr
        rw [dif_neg h] at hr
        exact ih _ _ hr

theorem search_source_mem {V : Type} (vs : VectorStore V) (tid : String) (k : Nat)
    (filt : Option (List (String × FilterVal))) (neighbors : List (ℚ × Int))
    (r : SearchResult) (hr : r ∈ vs.search tid k filt neighbors) :
    ∃ st, lookupA vs.tenants tid = some st ∧
      ∃ m ∈ st.metadata, r.source = m.source ∧ r.content = m.content := by
  by_cases hma : vs.modelAvailable = false
  · simp only [VectorStore.search, if_pos hma] at hr
    exact absurd hr (List.not_mem_nil r)
  · cases hl : lookupA vs.tenants tid with
    | none =>
        simp only [VectorStore.search, if_neg hma, hl] at hr
        exact absurd hr (List.not_mem_nil r)
    | some st =>
        simp only [VectorStore.search, if_neg hma, hl] at hr
        rcases searchGo_mem neighbors [] r hr with h | h
        · exact absurd h (List.not_mem_nil r)
        · exact ⟨st, rfl, h⟩

theorem length_filter_ne_add_eq (l : List ChunkMeta) (f : String) :
    (l.filter (fun m => m.source ≠ f)).length
      + (l.filter (fun m => m.source = f)).length = l.length := by
  induction l with
  | nil => rfl
  | cons a t ih =>
      rw [List.filter_cons, List.filter_cons]
      by_cases h : a.source = f
      · rw [if_neg (by simp [h]), if_pos (by simp [h]), List.length_cons, List.length_cons]
        omega
      · rw [if_pos (by simp [h]), if_neg (by simp [h]), List.length_cons, List.length_cons]
        omega

theorem map_source_toFinset_filter (l : List ChunkMeta) (f : String) :
    ((l.filter (fun m => m.source ≠ f)).map (fun m => m.source)).toFinset
      = ((l.map (fun m => m.source)).toFinset).erase f := by
  ext a
  simp only [List.mem_toFinset, List.mem_map, List.mem_filter, Finset.mem_erase,
    decide_eq_true_eq, ne_eq]
  constructor
  · rintro ⟨m, ⟨hm, hne⟩, rfl⟩
    exact ⟨hne, m, hm, rfl⟩
  · rintro ⟨hne, m, hm, rfl⟩
    exact ⟨m, ⟨hm, hne⟩, rfl⟩

/-- **C2**: with the alignment invariant in force,
`_remove_documents_by_filename` removes all and only the entries whose
`source` is the given filename, keeps the survivors in their original
relative order (with their re-derived embeddings), leaves an empty
index when nothing survives; afterwards `search` can never return
content from the deleted file, and `get_tenant_stats` reports `chunks`
decreased by the number of removed entries and `documents` decreased
by one exactly when the filename was present. -/
theorem C2_remove_by_filename_correct (V : Type) (embed : String → V)
    (vs : VectorStore V) (tid f : String) (st : TenantState V)
    (hl : lookupA vs.tenants tid = some st) (hc : st.canon embed) :
    ∃ st',
      lookupA ((vs.removeDocumentsByFilename f tid).1).tenants tid = some st' ∧
      st'.metadata = st.metadata.filter (fun m => m.source ≠ f) ∧
      st'.index = (st.metadata.filter (fun m => m.source ≠ f)).map (fun m => embed m.content) ∧
      (∀ m ∈ st'.metadata, m.source ≠ f) ∧
      (∀ m ∈ st.metadata, m.source ≠ f → m ∈ st'.metadata) ∧
      st'.metadata.Sublist st.metadata ∧
      ((∀ m ∈ st.metadata, m.source = f) → st' = ⟨[], []⟩) ∧
      (∀ (k : Nat) filt neighbors r,
          r ∈ ((vs.removeDocumentsByFilename f tid).1).search tid k filt neighbors →
            r.source ≠ f) ∧
      (((vs.removeDocumentsByFilename f tid).1).getTenantStats tid).chunks
          + (st.metadata.filter (fun m => m.source = f)).length
        = (vs.getTenantStats tid).chunks ∧
      (((vs.removeDocumentsByFilename f tid).1).getTenantStats tid).documents
        = (vs.getTenantStats tid).documents
            - (if f ∈ st.metadata.map (fun m => m.source) then 1 else 0) := by
  have hrm : (vs.removeDocumentsByFilename f tid).1
      = { vs with tenants := insertA vs.tenants tid (removeByFilename st f) } := by
    simp only [VectorStore.removeDocumentsByFilename, hl]
  have hrmeq := removeByFilename_eq_of_canon hc f
  have hlook : lookupA ((vs.removeDocumentsByFilename f tid).1).tenants tid
      = some ⟨(st.metadata.filter (fun m => m.source ≠ f)).map (fun m => embed m.content),
          st.metadata.filter (fun m => m.source ≠ f)⟩ := by
    rw [hrm]
    show lookupA (insertA vs.tenants tid (removeByFilename st f)) tid = _
    rw [lookupA_insertA, if_pos rfl, hrmeq]
  refine ⟨_, hlook, rfl, rfl, ?_, ?_, List.filter_sublist st.metadata, ?_, ?_, ?_, ?_⟩
  · intro m hm
    simpa using (List.mem_filter.mp hm).2
  · intro m hm hne
    exact List.mem_filter.mpr ⟨hm, by simpa using hne⟩
  · intro hall
    have : st.metadata.filter (fun m => m.source ≠ f) = [] :=
      List.filter_eq_nil_iff.mpr (fun m hm => by simpa using hall m hm)
    rw [this]
    rfl
  · intro k filt neighbors r hr
    rcases search_source_mem _ _ _ _ _ _ hr with ⟨st₂, hl₂, m, hm, hsrc, _⟩
    rw [hlook] at hl₂
    cases hl₂
    rw [hsrc]
    simpa using (List.mem_filter.mp hm).2
  · simp only [VectorStore.getTenantStats, hlook, hl]
    exact length_filter_ne_add_eq st.metadata f
  · simp only [VectorStore.getTenantStats, hlook, hl]
    rw [show ((st.metadata.filter (fun m => m.source ≠ f)).map (fun m => m.source)).toFinset
        = ((st.metadata.map (fun m => m.source)).toFinset).erase f from
      map_source_toFinset_filter st.metadata f]
    by_cases hf : f ∈ st.metadata.map (fun m => m.source)
    · rw [if_pos hf, Finset.card_erase_of_mem (List.mem_toFinset.mpr hf)]
    · rw [if_neg hf, Finset.erase_eq_of_not_mem (fun hx => hf (List.mem_toFinset.mp hx))]
      omega

/-- Concrete metadata entries and tenant state used by witnesses. -/
def wMetaA : ChunkMeta := ⟨"t_a.txt_1_0", "hello world", "a.txt", []⟩

def wMetaB : ChunkMeta := ⟨"t_b.txt_1_0", "xy", "b.txt", []⟩

def wSt2 : TenantState Nat := ⟨[11, 2], [wMetaA, wMetaB]⟩

def wVS2 : VectorStore Nat := ⟨true, [("t", wSt2)]⟩

theorem C2_remove_by_filename_correct_witness :
    (lookupA wVS2.tenants "t" = some wSt2) ∧
    (wSt2.canon (fun s => s.length)) ∧
    (∃ st',
      lookupA ((wVS2.removeDocumentsByFilename "a.txt" "t").1).tenants "t" = some st' ∧
      st'.metadata = wSt2.metadata.filter (fun m => m.source ≠ "a.txt") ∧
      st'.index = (wSt2.metadata.filter (fun m => m.source ≠ "a.txt")).map
        (fun m => m.content.length) ∧
      (∀ m ∈ st'.metadata, m.source ≠ "a.txt") ∧
      (∀ m ∈ wSt2.metadata, m.source ≠ "a.txt" → m ∈ st'.metadata) ∧
      st'.metadata.Sublist wSt2.metadata ∧
      ((∀ m ∈ wSt2.metadata, m.source = "a.txt") → st' = ⟨[], []⟩) ∧
      (∀ (k : Nat) filt neighbors r,
          r ∈ ((wVS2.removeDocumentsByFilename "a.txt" "t").1).search "t" k filt neighbors →
            r.source ≠ "a.txt") ∧
      (((wVS2.removeDocumentsByFilename "a.txt" "t").1).getTenantStats "t").chunks
          + (wSt2.metadata.filter (fun m => m.source = "a.txt")).length
        = (wVS2.getTenantStats "t").chunks ∧
      (((wVS2.removeDocumentsByFilename "a.txt" "t").1).getTenantStats "t").documents
        = (wVS2.getTenantStats "t").documents
            - (if "a.txt" ∈ wSt2.metadata.map (fun m => m.source) then 1 else 0)) :=
  ⟨by decide,
    by show wSt2.index = wSt2.metadata.map fun m => m.content.length; decide,
    C2_remove_by_filename_correct Nat (fun s => s.length) wVS2 "t" "a.txt" wSt2
      (by decide)
      (by show wSt2.index = wSt2.metadata.map fun m => m.content.length; decide)⟩

theorem insertA_insertA {β : Type _} (m : List (String × β)) (k : String) (v v' : β) :
    insertA (insertA m k v) k v' = insertA m k v' := by
  induction m with
  | nil => simp [insertA_nil, insertA_cons]
  | cons p t ih =>
      by_cases hp : (p.1 == k) = true
      · simp [insertA_cons, hp]
      · simp only [insertA_cons, hp, Bool.false_eq_true, if_false]
        rw [ih]

theorem filter_source_eq_of_all {f : String} {l : List ChunkMeta}
    (h : ∀ m ∈ l, m.source = f) : l.filter (fun m => m.source = f) = l :=
  List.filter_eq_self.mpr (fun m hm => by simpa using h m hm)

theorem filter_source_ne_nil_of_all {f : String} {l : List ChunkMeta}
    (h : ∀ m ∈ l, m.source = f) : l.filter (fun m => m.source ≠ f) = [] :=
  List.filter_eq_nil_iff.mpr (fun m hm => by simpa using h m hm)

theorem filter_ne_idem (l : List ChunkMeta) (f : String) :
    (l.filter (fun m => m.source ≠ f)).filter (fun m => m.source ≠ f)
      = l.filter (fun m => m.source ≠ f) :=
  List.filter_eq_self.mpr (fun _ hm => (List.mem_filter.mp hm).2)

theorem filter_ne_then_eq_nil (l : List ChunkMeta) (f : String) :
    (l.filter (fun m => m.source ≠ f)).filter (fun m => m.source = f) = [] :=
  List.filter_eq_nil_iff.mpr (fun x hm => by
    have := (List.mem_filter.mp hm).2
    simpa using this)

/-- `add_documents` on a nonempty chunk list with the default flags
(`replace_existing=True`, `clear_all=False`) and an available model:
remove the first chunk's filename from the (lazily created) tenant
state, then append embeddings and metadata. -/
theorem addDocuments_step {V : Type} (embed : String → V) (vs : VectorStore V)
    (c : DocumentChunk) (cs : List DocumentChunk) (tid : String)
    (hma : vs.modelAvailable = true) :
    (vs.addDocuments embed (c :: cs) tid true false).1
      = { vs with tenants := insertA vs.tenants tid (TenantState.mk
          ((removeByFilename ((lookupA vs.tenants tid).getD ⟨[], []⟩) c.source).index
              ++ (c :: cs).map (fun x => embed x.content))
          ((removeByFilename ((lookupA vs.tenants tid).getD ⟨[], []⟩) c.source).metadata
              ++ (c :: cs).map DocumentChunk.toMeta)) } := by
  have hcond : ¬ (vs.modelAvailable = false ∨ (c :: cs : List DocumentChunk) = []) := by
    simp [hma]
  simp only [VectorStore.addDocuments, if_neg hcond]
  simp

/-- **C3**: under `replace_existing=true` (and no `clear_all`),
ingesting the same chunk list — all chunks sharing one source filename
— twice leaves the store exactly as a single ingestion does
(re-ingestion is idempotent); the resulting tenant state holds exactly
one copy of that filename's chunks; and the `chunks` stat equals the
surviving other-file entries plus the new chunk count — in particular,
for a previously absent tenant it equals exactly the chunk count of
the single latest ingestion. -/
theorem C3_reingestion_idempotent (V : Type) (embed : String → V)
    (vs : VectorStore V) (tid f : String) (chunks : List DocumentChunk)
    (hma : vs.modelAvailable = true) (hne : chunks ≠ [])
    (hsrc : ∀ c ∈ chunks, c.source = f) (hcanon : vs.allCanon embed) :
    (((vs.addDocuments embed chunks tid true false).1).addDocuments
        embed chunks tid true false).1
      = (vs.addDocuments embed chunks tid true false).1 ∧
    (∃ st', lookupA ((vs.addDocuments embed chunks tid true false).1).tenants tid
          = some st' ∧
        st'.metadata.filter (fun m => m.source = f) = chunks.map DocumentChunk.toMeta) ∧
    (((vs.addDocuments embed chunks tid true false).1).getTenantStats tid).chunks
      = ((((lookupA vs.tenants tid).getD ⟨[], []⟩).metadata.filter
          (fun m => m.source ≠ f)).length) + chunks.length ∧
    (lookupA vs.tenants tid = none →
      (((vs.addDocuments embed chunks tid true false).1).getTenantStats tid).chunks
        = chunks.length) := by
  obtain ⟨c, cs, rfl⟩ := List.exists_cons_of_ne_nil hne
  have hcf : c.source = f := hsrc c (by simp)
  set st0 := (lookupA vs.tenants tid).getD ⟨[], []⟩ with hst0def
  have hst0 : st0.canon embed := by
    rw [hst0def]
    cases hl : lookupA vs.tenants tid with
    | none => rfl
    | some s => simpa using hcanon _ _ hl
  set md1 := st0.metadata.filter (fun m => m.source ≠ f) with hmd1
  have hrm1 : removeByFilename st0 c.source
      = ⟨md1.map (fun m => embed m.content), md1⟩ := by
    rw [removeByFilename_eq_of_canon hst0 c.source, hcf]
  have hstep1 := addDocuments_step embed vs c cs tid hma
  rw [← hst0def, hrm1] at hstep1
  dsimp only at hstep1
  set st2 : TenantState V :=
    ⟨md1.map (fun m => embed m.content) ++ (c :: cs).map (fun x => embed x.content),
      md1 ++ (c :: cs).map DocumentChunk.toMeta⟩ with hst2
  have hlook2 : lookupA (insertA vs.tenants tid st2) tid = some st2 := by
    rw [lookupA_insertA, if_pos rfl]
  have hsrcmeta : ∀ m ∈ (c :: cs).map DocumentChunk.toMeta, m.source = f := by
    intro m hm
    rcases List.mem_map.mp hm with ⟨ch, hch, rfl⟩
    exact hsrc ch hch
  have hmd2 : st2.metadata.filter (fun m => m.source ≠ f) = md1 := by
    rw [hst2]
    dsimp only
    rw [List.filter_append, filter_source_ne_nil_of_all hsrcmeta, List.append_nil,
      hmd1, filter_ne_idem, ← hmd1]
  have hcanon2 : st2.canon embed := by
    show st2.index = st2.metadata.map (fun m => embed m.content)
    rw [hst2]
    dsimp only
    rw [List.map_append, List.map_map]
    rfl
  have hrm2 : removeByFilename st2 c.source
      = ⟨md1.map (fun m => embed m.content), md1⟩ := by
    rw [removeByFilename_eq_of_canon hcanon2 c.source, hcf, hmd2]
  refine ⟨?_, ?_, ?_, ?_⟩
  · rw [hstep1]
    have hstep2 := addDocuments_step embed
      { vs with tenants := insertA vs.tenants tid st2 } c cs tid hma
    rw [hstep2]
    dsimp only
    rw [hlook2]
    dsimp only [Option.getD]
    rw [hrm2]
    dsimp only
    rw [← hst2, insertA_insertA]
  · refine ⟨st2, ?_, ?_⟩
    · rw [hstep1]
      exact hlook2
    · rw [hst2]
      dsimp only
      rw [List.filter_append, filter_source_eq_of_all hsrcmeta, hmd1,
        filter_ne_then_eq_nil, List.nil_append]
  · rw [hstep1]
    simp only [VectorStore.getTenantStats, hlook2]
    rw [List.length_append, List.length_map]
  · intro hnone
    have hmd1nil : md1 = [] := by
      rw [hmd1, hst0def, hnone]
      rfl
    rw [hstep1]
    simp only [VectorStore.getTenantStats, hlook2]
    rw [hmd1nil, List.nil_append, List.length_map]

/-- Concrete chunk list for the C3 witness: two chunks of one file. -/
def wChunks3 : List DocumentChunk :=
  [⟨"alpha", [], "t_c.txt_1_0", "c.txt", 1, 0⟩,
   ⟨"beta", [], "t_c.txt_1_1", "c.txt", 1, 1⟩]

theorem C3_reingestion_idempotent_witness :
    (wVS2.modelAvailable = true) ∧ (wChunks3 ≠ []) ∧
    (∀ c ∈ wChunks3, c.source = "c.txt") ∧
    ((((wVS2.addDocuments (fun s => s.length) wChunks3 "t" true false).1).addDocuments
        (fun s => s.length) wChunks3 "t" true false).1
      = (wVS2.addDocuments (fun s => s.length) wChunks3 "t" true false).1 ∧
    (∃ st', lookupA ((wVS2.addDocuments (fun s => s.length) wChunks3 "t" true false).1).tenants "t"
          = some st' ∧
        st'.metadata.filter (fun m => m.source = "c.txt")
          = wChunks3.map DocumentChunk.toMeta) ∧
    (((wVS2.addDocuments (fun s => s.length) wChunks3 "t" true false).1).getTenantStats "t").chunks
      = ((((lookupA wVS2.tenants "t").getD ⟨[], []⟩).metadata.filter
          (fun m => m.source ≠ "c.txt")).length) + wChunks3.length ∧
    (lookupA wVS2.tenants "t" = none →
      (((wVS2.addDocuments (fun s => s.length) wChunks3 "t" true false).1).getTenantStats "t").chunks
        = wChunks3.length)) :=
  ⟨rfl, by decide, by decide,
    C3_reingestion_idempotent Nat (fun s => s.length) wVS2 "t" "c.txt" wChunks3
      rfl (by decide) (by decide)
      (by
        intro tid st h
        simp only [wVS2] at h
        rw [lookupA_cons] at h
        by_cases ht : (("t", wSt2).1 == tid) = true
        · rw [if_pos ht] at h
          have hst : st = wSt2 := by
            injection h with h'
            exact h'.symm
          subst hst
          show wSt2.index = wSt2.metadata.map fun m => m.content.length
          decide
        · rw [if_neg ht] at h
          simp [lookupA, List.find?] at h)⟩

theorem hybridLe_trans : ∀ (a b c : HybridResult),
    (decide (b.hybridScore ≤ a.hybridScore)) = true →
    (decide (c.hybridScore ≤ b.hybridScore)) = true →
    (decide (c.hybridScore ≤ a.hybridScore)) = true := fun _ _ _ hab hbc =>
  decide_eq_true (le_trans (of_decide_eq_true hbc) (of_decide_eq_true hab))

theorem hybridLe_total : ∀ (a b : HybridResult),
    ((decide (b.hybridScore ≤ a.hybridScore))
      || (decide (a.hybridScore ≤ b.hybridScore))) = true := by
  intro a b
  rcases le_total b.hybridScore a.hybridScore with h | h <;> simp [h]

/-- **C4**: for a query with a non-empty word set, `hybrid_search`
returns (without raising) at most `k` results, each of which is a
`2k`-candidate semantic `search` hit annotated with the word-overlap
keyword score and the linear fusion
`(1 - keyword_weight) * semantic + keyword_weight * keyword`; the
returned list is sorted descending by fused score; and for any two
candidates of which one has the strictly higher keyword score and the
other the strictly higher semantic score, there is a threshold
`w0 < 1` past which the fused score strictly favours the
higher-keyword-score candidate. -/
theorem C4_hybrid_search (V : Type) (vs : VectorStore V) (query tid : String)
    (k : Nat) (filt : Option (List (String × FilterVal))) (w : ℚ)
    (neighbors : List (ℚ × Int))
    (hq : (pyWords query).dedup ≠ []) :
    ∃ res, vs.hybridSearch query tid k filt w neighbors = .ok res ∧
      res.length ≤ k ∧
      (∀ r ∈ res, r.base ∈ vs.search tid (k * 2) filt neighbors ∧
        r.keywordScore = keywordScore ((pyWords query).dedup) r.base.content ∧
        r.hybridScore = (1 - w) * r.base.score
          + w * keywordScore ((pyWords query).dedup) r.base.content) ∧
      res.Pairwise (fun a b => b.hybridScore ≤ a.hybridScore) ∧
      (∀ a b : SearchResult,
        keywordScore ((pyWords query).dedup) b.content
            < keywordScore ((pyWords query).dedup) a.content →
        a.score < b.score →
        ∃ w0 : ℚ, w0 < 1 ∧ ∀ w' : ℚ, w0 < w' →
          (1 - w') * b.score + w' * keywordScore ((pyWords query).dedup) b.content
            < (1 - w') * a.score + w' * keywordScore ((pyWords query).dedup) a.content) := by
  have hthresh : ∀ a b : SearchResult,
      keywordScore ((pyWords query).dedup) b.content
          < keywordScore ((pyWords query).dedup) a.content →
      a.score < b.score →
      ∃ w0 : ℚ, w0 < 1 ∧ ∀ w' : ℚ, w0 < w' →
        (1 - w') * b.score + w' * keywordScore ((pyWords query).dedup) b.content
          < (1 - w') * a.score + w' * keywordScore ((pyWords query).dedup) a.content := by
    intro a b hk hs
    set ka := keywordScore ((pyWords query).dedup) a.content with hka
    set kb := keywordScore ((pyWords query).dedup) b.content with hkb
    have hD : 0 < (ka - kb) + (b.score - a.score) := by linarith
    refine ⟨(b.score - a.score) / ((ka - kb) + (b.score - a.score)), ?_, ?_⟩
    · rw [div_lt_one hD]
      linarith
    · intro w' hw
      rw [div_lt_iff₀ hD] at hw
      nlinarith [hw]
  cases hsem : vs.search tid (k * 2) filt neighbors with
  | nil =>
      refine ⟨[], ?_, by simp, by simp, List.Pairwise.nil, hthresh⟩
      simp only [VectorStore.hybridSearch, hsem]
  | cons r0 rs =>
      have hqlen : ¬ ((pyWords query).dedup.length = 0) := by
        simpa [List.length_eq_zero] using hq
      set scored := (r0 :: rs).map (fun r =>
        HybridResult.mk r (keywordScore ((pyWords query).dedup) r.content)
          ((1 - w) * r.score
            + w * keywordScore ((pyWords query).dedup) r.content)) with hscored
      refine ⟨(scored.mergeSort
          (fun a b => decide (b.hybridScore ≤ a.hybridScore))).take k, ?_, ?_, ?_, ?_, hthresh⟩
      · simp only [VectorStore.hybridSearch, hsem, if_neg hqlen]
      · rw [List.length_take]
        exact min_le_left _ _
      · intro r hr
        have hr1 : r ∈ scored.mergeSort (fun a b => decide (b.hybridScore ≤ a.hybridScore)) :=
          List.mem_of_mem_take hr
        have hr2 : r ∈ scored := (List.mergeSort_perm scored _).mem_iff.mp hr1
        rw [hscored] at hr2
        rcases List.mem_map.mp hr2 with ⟨s, hs, rfl⟩
        exact ⟨hs, rfl, rfl⟩
      · have hsorted := List.sorted_mergeSort hybridLe_trans hybridLe_total scored
        have hsub : List.Sublist
            ((scored.mergeSort (fun a b => decide (b.hybridScore ≤ a.hybridScore))).take k)
            (scored.mergeSort (fun a b => decide (b.hybridScore ≤ a.hybridScore))) :=
          List.take_sublist _ _
        exact (hsorted.sublist hsub).imp (fun h => of_decide_eq_true h)

theorem C4_hybrid_search_witness :
    ((pyWords "hello world").dedup ≠ []) ∧
    (∃ res, wVS2.hybridSearch "hello world" "t" 1 none (3 / 10) [(1, 0), ((1 : ℚ) / 2, 1)]
        = .ok res ∧
      res.length ≤ 1 ∧
      (∀ r ∈ res, r.base ∈ wVS2.search "t" (1 * 2) none [(1, 0), ((1 : ℚ) / 2, 1)] ∧
        r.keywordScore = keywordScore ((pyWords "hello world").dedup) r.base.content ∧
        r.hybridScore = (1 - 3 / 10) * r.base.score
          + (3 / 10) * keywordScore ((pyWords "hello world").dedup) r.base.content) ∧
      res.Pairwise (fun a b => b.hybridScore ≤ a.hybridScore) ∧
      (∀ a b : SearchResult,
        keywordScore ((pyWords "hello world").dedup) b.content
            < keywordScore ((pyWords "hello world").dedup) a.content →
        a.score < b.score →
        ∃ w0 : ℚ, w0 < 1 ∧ ∀ w' : ℚ, w0 < w' →
          (1 - w') * b.score
              + w' * keywordScore ((pyWords "hello world").dedup) b.content
            < (1 - w') * a.score
              + w' * keywordScore ((pyWords "hello world").dedup) a.content)) :=
  ⟨by decide,
    C4_hybrid_search Nat wVS2 "hello world" "t" 1 none (3 / 10) [(1, 0), ((1 : ℚ) / 2, 1)]
      (by decide)⟩

/-- The fields of the result dicts built in
`src/controller/agent_controller.py`. -/
structure RouteResult where
  response : String
  agent : String
  confidence : ℚ
  error : Option String
deriving DecidableEq, Repr

/-- One iteration of the loop in `AgentController._route_to_agent`:
strictly-greater comparison against the running best. -/
def routeStep (best : Option String × ℚ) (a : String × ℚ) : Option String × ℚ :=
  if a.2 > best.2 then (some a.1, a.2) else best

/-- `AgentController._route_to_agent`: scores are the agents'
`can_handle(message, context)` answers in registration order;
`best_agent` starts as `None` and `highest_confidence` as `0.0`. -/
def routeToAgent (agents : List (String × ℚ)) : Option String × ℚ :=
  agents.foldl routeStep (none, 0)

/-- `AgentController._should_use_fallback`:
`confidence < 0.5 or selected_agent is None`. -/
def shouldUseFallback (state : Option String × ℚ) : Bool :=
  state.2 < 1 / 2 || state.1.isNone

/-- `AgentController._fallback_response`: on LLM success a
"General Assistant" reply with fixed confidence 0.3; if its own
processing raises, an error-shaped result with confidence 0.0 instead
of propagating. -/
def fallbackResponse (llm : Except String String) : RouteResult :=
  match llm with
  | .ok content => ⟨content, "General Assistant", 3 / 10, none⟩
  | .error e =>
      ⟨"I apologize, but I encountered an error processing your request: " ++ e,
        "Error Handler", 0, some e⟩

/-- `AgentController._execute_selected_agent`: the selected agent's
`process` outcome (an exception becomes an error-shaped result with
confidence 0.0); an unknown or absent selection yields the
"No suitable agent" result. -/
def executeSelectedAgent (selected : Option String) (registered : List String)
    (process : String → Except String RouteResult) : RouteResult :=
  match selected with
  | some name =>
      if name ∈ registered then
        match process name with
        | .ok r => r
        | .error e => ⟨"Agent processing error: " ++ e, name, 0, some e⟩
      else ⟨"No suitable agent found to handle this request.", "Unknown", 0, none⟩
  | none => ⟨"No suitable agent found to handle this request.", "Unknown", 0, none⟩

/-- The compiled graph's conditional edge: route, then fallback or
execute. -/
def dispatch (agents : List (String × ℚ)) (process : String → Except String RouteResult)
    (llm : Except String String) : RouteResult :=
  if shouldUseFallback (routeToAgent agents) then fallbackResponse llm
  else executeSelectedAgent (routeToAgent agents).1 (agents.map (·.1)) process

theorem routeFold_spec : ∀ (l : List (String × ℚ)) (acc : Option String × ℚ),
    (l.foldl routeStep acc = acc ∧ ∀ a ∈ l, a.2 ≤ acc.2) ∨
    (∃ nm pre post,
      (l.foldl routeStep acc).1 = some nm ∧
      l = pre ++ (nm, (l.foldl routeStep acc).2) :: post ∧
      acc.2 < (l.foldl routeStep acc).2 ∧
      (∀ a ∈ pre, a.2 < (l.foldl routeStep acc).2) ∧
      (∀ a ∈ post, a.2 ≤ (l.foldl routeStep acc).2))
  | [], acc => Or.inl ⟨rfl, by simp⟩
  | a :: t, acc => by
      rw [List.foldl_cons]
      by_cases h : a.2 > acc.2
      · have hstep : routeStep acc a = (some a.1, a.2) := by
          simp [routeStep, h]
        rw [hstep]
        rcases routeFold_spec t (some a.1, a.2) with ⟨heq, hle⟩ |
            ⟨nm, pre, post, h1, h2, h3, h4, h5⟩
        · right
          refine ⟨a.1, [], t, ?_, ?_, ?_, by simp, ?_⟩
          · rw [heq]
          · rw [heq]
            simp
          · rw [heq]
            exact h
          · intro b hb
            rw [heq]
            exact hle b hb
        · right
          refine ⟨nm, a :: pre, post, h1, ?_, lt_trans h h3, ?_, h5⟩
          · rw [List.cons_append, ← h2]
          · intro b hb
            rcases List.mem_cons.mp hb with rfl | hb'
            · exact h3
            · exact h4 b hb'
      · have hstep : routeStep acc a = acc := by
          simp [routeStep, h]
        rw [hstep]
        rcases routeFold_spec t acc with ⟨heq, hle⟩ |
            ⟨nm, pre, post, h1, h2, h3, h4, h5⟩
        · left
          refine ⟨heq, ?_⟩
          intro b hb
          rcases List.mem_cons.mp hb with rfl | hb'
          · exact le_of_not_lt h
          · exact hle b hb'
        · right
          refine ⟨nm, a :: pre, post, h1, ?_, h3, ?_, h5⟩
          · rw [List.cons_append, ← h2]
          · intro b hb
            rcases List.mem_cons.mp hb with rfl | hb'
            · exact lt_of_le_of_lt (le_of_not_lt h) h3
            · exact h4 b hb'

/-- **C5**: routing selects the strictly-highest-scoring handler, so
the earliest registered handler wins ties (everything before the
winner scores strictly lower, everything after at most as high, and a
winner exists only with positive confidence); a winning confidence of
exactly 1/2 dispatches to that handler while 49/100 (or no positive
scorer at all) dispatches to the fallback; the fallback reply carries
fixed confidence 3/10 unless its own processing fails, in which case
an error-shaped result with confidence 0 is returned. -/
theorem C5_routing_threshold (agents : List (String × ℚ))
    (process : String → Except String RouteResult) (llm : Except String String)
    (msg err : String) :
    (∀ nm cf, routeToAgent agents = (some nm, cf) →
      0 < cf ∧ ∃ pre post, agents = pre ++ (nm, cf) :: post ∧
        (∀ a ∈ pre, a.2 < cf) ∧ (∀ a ∈ post, a.2 ≤ cf)) ∧
    (∀ cf, routeToAgent agents = (none, cf) → cf = 0 ∧ ∀ a ∈ agents, a.2 ≤ 0) ∧
    (∀ nm, routeToAgent agents = (some nm, 1 / 2) →
      shouldUseFallback (routeToAgent agents) = false ∧
      dispatch agents process llm
        = executeSelectedAgent (some nm) (agents.map (·.1)) process) ∧
    ((routeToAgent agents).2 = 49 / 100 →
      shouldUseFallback (routeToAgent agents) = true ∧
      dispatch agents process llm = fallbackResponse llm) ∧
    ((∀ a ∈ agents, a.2 ≤ 0) →
      routeToAgent agents = (none, 0) ∧
      dispatch agents process llm = fallbackResponse llm) ∧
    ((fallbackResponse (Except.ok msg)).confidence = 3 / 10 ∧
      (fallbackResponse (Except.ok msg)).agent = "General Assistant" ∧
      (fallbackResponse (Except.ok msg)).error = none ∧
      (fallbackResponse (Except.error err)).confidence = 0 ∧
      (fallbackResponse (Except.error err)).error = some err) := by
  refine ⟨?_, ?_, ?_, ?_, ?_, rfl, rfl, rfl, rfl, rfl⟩
  · intro nm cf hr
    rcases routeFold_spec agents (none, 0) with ⟨heq, _⟩ |
        ⟨nm', pre, post, h1, h2, h3, h4, h5⟩
    · rw [show agents.foldl routeStep (none, 0) = routeToAgent agents from rfl, hr] at heq
      exact absurd (congrArg Prod.fst heq) (by simp)
    · rw [show agents.foldl routeStep (none, 0) = routeToAgent agents from rfl, hr]
        at h1 h2 h3 h4 h5
      have hnm : nm = nm' := by simpa using h1
      subst hnm
      exact ⟨h3, pre, post, h2, h4, h5⟩
  · intro cf hr
    rcases routeFold_spec agents (none, 0) with ⟨heq, hle⟩ |
        ⟨nm', pre, post, h1, _, _, _, _⟩
    · rw [show agents.foldl routeStep (none, 0) = routeToAgent agents from rfl, hr] at heq
      have : cf = 0 := congrArg Prod.snd heq
      exact ⟨this, hle⟩
    · rw [show agents.foldl routeStep (none, 0) = routeToAgent agents from rfl, hr] at h1
      exact absurd h1 (by simp)
  · intro nm hr
    have hf : shouldUseFallback (routeToAgent agents) = false := by
      rw [hr]
      simp [shouldUseFallback]
    have hf2 : shouldUseFallback ((some nm : Option String), (1 : ℚ) / 2) = false := by
      simp [shouldUseFallback]
    refine ⟨hf, ?_⟩
    simp only [dispatch, hr, hf2, Bool.false_eq_true, if_false]
  · intro h2
    have hf : shouldUseFallback (routeToAgent agents) = true := by
      have hlt : (49 : ℚ) / 100 < 1 / 2 := by norm_num
      simp only [shouldUseFallback, h2, decide_eq_true hlt, Bool.true_or]
    refine ⟨hf, ?_⟩
    simp only [dispatch, hf, if_true]
  · intro hall
    have hr : routeToAgent agents = (none, 0) := by
      rcases routeFold_spec agents (none, 0) with ⟨heq, _⟩ |
          ⟨nm', pre, post, h1, h2, h3, _, _⟩
      · exact heq
      · exfalso
        have hmem : (nm', (List.foldl routeStep (none, 0) agents).2) ∈ agents := by
          have hx : (nm', (List.foldl routeStep (none, 0) agents).2)
              ∈ pre ++ (nm', (List.foldl routeStep (none, 0) agents).2) :: post :=
            List.mem_append_right pre (List.mem_cons_self _ _)
          rw [← h2] at hx
          exact hx
        have := hall _ hmem
        simp only at this
        exact absurd h3 (not_lt.mpr this)
    refine ⟨hr, ?_⟩
    have hf : shouldUseFallback (routeToAgent agents) = true := by
      rw [hr]
      simp [shouldUseFallback]
    simp only [dispatch, hf, if_true]

/-- Concrete routing table for the C5 witness: a tie at 1/2 between
the second and third handlers. -/
def wAgents : List (String × ℚ) :=
  [("document_qa", 3 / 10), ("api_execution", 1 / 2), ("form_generation", 1 / 2)]

/-- A routing table whose best score is 49/100. -/
def wAgentsLow : List (String × ℚ) :=
  [("document_qa", 49 / 100), ("api_execution", 1 / 4)]

def wProcess : String → Except String RouteResult :=
  fun n => .ok ⟨"handled", n, 9 / 10, none⟩

theorem C5_routing_threshold_witness :
    (routeToAgent wAgents = (some "api_execution", 1 / 2)) ∧
    (0 < (1 : ℚ) / 2 ∧ ∃ pre post, wAgents = pre ++ ("api_execution", (1 : ℚ) / 2) :: post ∧
      (∀ a ∈ pre, a.2 < (1 : ℚ) / 2) ∧ (∀ a ∈ post, a.2 ≤ (1 : ℚ) / 2)) ∧
    (shouldUseFallback (routeToAgent wAgents) = false ∧
      dispatch wAgents wProcess (Except.ok "hi")
        = executeSelectedAgent (some "api_execution") (wAgents.map (·.1)) wProcess) ∧
    (shouldUseFallback (routeToAgent wAgentsLow) = true ∧
      dispatch wAgentsLow wProcess (Except.ok "hi") = fallbackResponse (Except.ok "hi")) :=
  ⟨by norm_num [routeToAgent, wAgents, routeStep, List.foldl],
    ((C5_routing_threshold wAgents wProcess (Except.ok "hi") "m" "e").1 "api_execution"
      (1 / 2) (by norm_num [routeToAgent, wAgents, routeStep, List.foldl])),
    ((C5_routing_threshold wAgents wProcess (Except.ok "hi") "m" "e").2.2.1 "api_execution"
      (by norm_num [routeToAgent, wAgents, routeStep, List.foldl])),
    ((C5_routing_threshold wAgentsLow wProcess (Except.ok "hi") "m" "e").2.2.2.1
      (by norm_num [routeToAgent, wAgentsLow, routeStep, List.foldl]))⟩

/-- The sliding-window loop shared by
`DocumentProcessor._character_based_chunking` and
`_token_based_chunking`:
`for i in range(0, len(seq), step): seq[i:i+chunk_size]`, encoded over
any unit list (characters or tokens) for a positive step `s + 1`. -/
def slidingChunks {α : Type _} (W s : Nat) (l : List α) : List (List α) :=
  match l with
  | [] => []
  | a :: t => ((a :: t).take W) :: slidingChunks W s ((a :: t).drop (s + 1))
termination_by l.length
decreasing_by
  simp only [List.length_drop, List.length_cons]
  omega

theorem slidingChunks_nil {α : Type _} (W s : Nat) :
    slidingChunks W s ([] : List α) = [] := by
  rw [slidingChunks]

theorem slidingChunks_cons {α : Type _} (W s : Nat) (a : α) (t : List α) :
    slidingChunks W s (a :: t)
      = ((a :: t).take W) :: slidingChunks W s ((a :: t).drop (s + 1)) := by
  rw [slidingChunks]

/-- The chunking window loop with Python `range` semantics for the
step `chunk_size - chunk_overlap`: a positive step slides the window;
step `0` makes `range` raise `ValueError` (`none`); a negative step
makes `range(0, n, step)` empty, so the loop appends nothing. -/
def pythonRangeChunks {α : Type _} (chunkSize chunkOverlap : Nat) (l : List α) :
    Option (List (List α)) :=
  if chunkOverlap < chunkSize then
    some (slidingChunks chunkSize (chunkSize - chunkOverlap - 1) l)
  else if chunkSize < chunkOverlap then some []
  else none

/-- `DocumentProcessor._character_based_chunking` on the text's
character list. -/
def characterBasedChunking (chunkSize chunkOverlap : Nat) (text : List Char) :
    Option (List (List Char)) :=
  pythonRangeChunks chunkSize chunkOverlap text

/-- `DocumentProcessor._token_based_chunking` after `tokenizer.encode`:
the identical window loop over the token list (each window is then
`decode`d downstream). -/
def tokenBasedChunking (chunkSize chunkOverlap : Nat) (tokens : List Nat) :
    Option (List (List Nat)) :=
  pythonRangeChunks chunkSize chunkOverlap tokens

theorem slidingChunks_getElem? {α : Type _} (W s : Nat) :
    ∀ (t : List α) (j : Nat),
      (slidingChunks W s t)[j]? =
        if j * (s + 1) < t.length
        then some ((t.drop (j * (s + 1))).take W)
        else none
  | [], j => by
      rw [slidingChunks_nil]
      simp
  | a :: t, 0 => by
      rw [slidingChunks_cons]
      simp
  | a :: t, j + 1 => by
      rw [slidingChunks_cons, List.getElem?_cons_succ,
        slidingChunks_getElem? W s ((a :: t).drop (s + 1)) j,
        List.length_drop, List.drop_drop]
      have hmul : (j + 1) * (s + 1) = j * (s + 1) + (s + 1) := Nat.succ_mul _ _
      rw [hmul]
      by_cases hcase : j * (s + 1) + (s + 1) < (a :: t).length
      · rw [if_pos (by omega), if_pos hcase, Nat.add_comm (s + 1) (j * (s + 1))]
      · rw [if_neg (by omega), if_neg hcase]
termination_by t _ => t.length
decreasing_by
  simp only [List.length_drop, List.length_cons]
  omega

theorem slidingChunks_ne_nil {α : Type _} (W s : Nat) (t : List α) (h : t ≠ []) :
    slidingChunks W s t ≠ [] := by
  cases t with
  | nil => exact absurd rfl h
  | cons a u =>
      rw [slidingChunks_cons]
      exact List.cons_ne_nil _ _

theorem slidingChunks_reconstruct_aux {α : Type _} (s ov : Nat) :
    ∀ (n : Nat) (t : List α), t.length ≤ n →
      t.take (s + 1 + ov)
        ++ ((slidingChunks (s + 1 + ov) s (t.drop (s + 1))).map
            (fun c => c.drop ov)).flatten = t := by
  intro n
  induction n with
  | zero =>
      intro t ht
      have hnil : t = [] := List.length_eq_zero.mp (Nat.le_zero.mp ht)
      subst hnil
      rw [List.drop_nil, slidingChunks_nil]
      simp
  | succ n IH =>
      intro t ht
      cases hd : t.drop (s + 1) with
      | nil =>
          rw [slidingChunks_nil]
          simp only [List.map_nil, List.flatten_nil, List.append_nil]
          have hlen : t.length ≤ s + 1 := by
            have hl := congrArg List.length hd
            rw [List.length_drop] at hl
            simp only [List.length_nil] at hl
            omega
          exact List.take_of_length_le (by omega)
      | cons b u =>
          have hlen : (t.drop (s + 1)).length ≤ n := by
            have hl := congrArg List.length hd
            rw [List.length_drop] at hl ⊢
            simp only [List.length_cons] at hl
            omega
          have IH2 := IH (t.drop (s + 1)) hlen
          rw [slidingChunks_cons, ← hd]
          simp only [List.map_cons, List.flatten_cons]
          rw [List.take_add, List.append_assoc,
            ← List.append_assoc ((t.drop (s + 1)).take ov)]
          have h3 : (t.drop (s + 1)).take ov
              ++ (((t.drop (s + 1)).take (s + 1 + ov)).drop ov)
                = (t.drop (s + 1)).take (s + 1 + ov) := by
            conv_lhs =>
              rw [show (t.drop (s + 1)).take ov
                  = ((t.drop (s + 1)).take (s + 1 + ov)).take ov by
                rw [List.take_take, min_eq_left (by omega)]]
            exact List.take_append_drop ov _
          rw [h3, IH2, List.take_append_drop]

theorem slidingChunks_reconstruct {α : Type _} (s ov : Nat) (t : List α) :
    t.take (s + 1 + ov)
      ++ ((slidingChunks (s + 1 + ov) s (t.drop (s + 1))).map
          (fun c => c.drop ov)).flatten = t :=
  slidingChunks_reconstruct_aux s ov t.length t le_rfl

/-- **C6** (amended): for `chunk_overlap < chunk_size`, the chunker
(character- or token-based: the window loop is the same) produces the
windows anchored at positions `0, step, 2*step, …` with
`step = chunk_size - chunk_overlap`; every pair of consecutive chunks
whose successor holds at least `chunk_overlap` units shares exactly
`chunk_overlap` units (the suffix of one is the prefix of the next) —
pairs in the final partial-window tail, the successor being shorter
than the overlap, share only that shorter remainder —; concatenating
the first chunk with every later chunk's suffix past its first
`chunk_overlap` units reconstructs the text; and a nonempty text
yields at least one chunk. -/
theorem C6_chunking_overlap (α : Type) (chunkSize chunkOverlap : Nat)
    (text : List α) (hov : chunkOverlap < chunkSize) :
    ∃ chunks, pythonRangeChunks chunkSize chunkOverlap text = some chunks ∧
      (∀ j : Nat, chunks[j]? =
        if j * (chunkSize - chunkOverlap) < text.length
        then some ((text.drop (j * (chunkSize - chunkOverlap))).take chunkSize)
        else none) ∧
      (∀ (j : Nat) (c c' : List α), chunks[j]? = some c → chunks[j + 1]? = some c' →
        chunkOverlap ≤ c'.length →
          c.drop (c.length - chunkOverlap) = c'.take chunkOverlap ∧
          (c'.take chunkOverlap).length = chunkOverlap) ∧
      (∀ c0 rest, chunks = c0 :: rest →
        c0 ++ (rest.map (fun c => c.drop chunkOverlap)).flatten = text) ∧
      (text ≠ [] → chunks ≠ []) := by
  have hstep : chunkSize - chunkOverlap - 1 + 1 = chunkSize - chunkOverlap := by omega
  have hW : chunkSize - chunkOverlap - 1 + 1 + chunkOverlap = chunkSize := by omega
  refine ⟨slidingChunks chunkSize (chunkSize - chunkOverlap - 1) text, ?_, ?_, ?_, ?_, ?_⟩
  · rw [pythonRangeChunks, if_pos hov]
  · intro j
    rw [slidingChunks_getElem?, hstep]
  · intro j c c' hc hc' hlen
    rw [slidingChunks_getElem?, hstep] at hc hc'
    split_ifs at hc with hjc
    · split_ifs at hc' with hjc'
      · cases hc
        cases hc'
        have hlen' : chunkOverlap ≤ text.length - (j + 1) * (chunkSize - chunkOverlap) := by
          rw [List.length_take, List.length_drop] at hlen
          omega
        have hsucc : (j + 1) * (chunkSize - chunkOverlap)
            = j * (chunkSize - chunkOverlap) + (chunkSize - chunkOverlap) :=
          Nat.succ_mul _ _
        have hfull : chunkSize ≤ text.length - j * (chunkSize - chunkOverlap) := by
          omega
        constructor
        · have hclen : ((text.drop (j * (chunkSize - chunkOverlap))).take chunkSize).length
              = chunkSize := by
            rw [List.length_take, List.length_drop]
            omega
          have hamt : chunkSize - (chunkSize - chunkOverlap) = chunkOverlap := by omega
          rw [hclen, List.drop_take, List.drop_drop, List.take_take,
            min_eq_left (by omega), hamt, ← hsucc]
        · simp only [List.length_take, List.length_drop]
          omega
  · intro c0 rest hchunks
    have hrec := slidingChunks_reconstruct (chunkSize - chunkOverlap - 1) chunkOverlap text
    rw [hW] at hrec
    cases htext : text with
    | nil =>
        rw [htext, slidingChunks_nil] at hchunks
        cases hchunks
    | cons a u =>
        rw [htext, slidingChunks_cons, ← htext] at hchunks
        injection hchunks with h0 h1
        subst h0
        subst h1
        rw [← htext]
        exact hrec
  · intro hne
    exact slidingChunks_ne_nil _ _ _ hne

/-- The overlap clause of C6 as literally stated — every pair of
consecutive chunks shares exactly `chunk_overlap` units except the
final chunk, which may be shorter — is false when the overlap exceeds
the step: with `chunk_size = 10`, `chunk_overlap = 8` (step 2) and a
25-unit text, chunks 10 and 11 are consecutive and chunk 11 is *not*
the final chunk (chunk 12 exists), yet the two share only 3 units. -/
theorem C6_counterexample :
    ∃ chunks, pythonRangeChunks 10 8 (List.range 25) = some chunks ∧
      chunks[12]? ≠ none ∧
      ∃ c c', chunks[10]? = some c ∧ chunks[11]? = some c' ∧
        ¬(c.drop (c.length - 8) = c'.take 8 ∧ (c'.take 8).length = 8) := by
  refine ⟨slidingChunks 10 1 (List.range 25), rfl, ?_, ?_⟩
  · rw [slidingChunks_getElem? 10 1 (List.range 25) 12]
    decide
  · refine ⟨[20, 21, 22, 23, 24], [22, 23, 24], ?_, ?_, by decide⟩
    · rw [slidingChunks_getElem? 10 1 (List.range 25) 10]
      decide
    · rw [slidingChunks_getElem? 10 1 (List.range 25) 11]
      decide

theorem C6_chunking_overlap_witness :
    (1 < 3) ∧
    (∃ chunks, pythonRangeChunks 3 1 (List.range 5) = some chunks ∧
      (∀ j : Nat, chunks[j]? =
        if j * (3 - 1) < (List.range 5).length
        then some (((List.range 5).drop (j * (3 - 1))).take 3)
        else none) ∧
      (∀ (j : Nat) (c c' : List Nat), chunks[j]? = some c → chunks[j + 1]? = some c' →
        1 ≤ c'.length →
          c.drop (c.length - 1) = c'.take 1 ∧ (c'.take 1).length = 1) ∧
      (∀ c0 rest, chunks = c0 :: rest →
        c0 ++ (rest.map (fun c => c.drop 1)).flatten = List.range 5) ∧
      (List.range 5 ≠ [] → chunks ≠ [])) :=
  ⟨by decide, C6_chunking_overlap Nat 3 1 (List.range 5) (by decide)⟩

/-- A `{"content": …, "page": …}` entry as produced by the extractors
of `src/rag/document_processor.py`. -/
structure Page where
  content : String
  page : Nat
deriving DecidableEq, Repr

/-- `not text.strip()`: the text is empty or whitespace-only. -/
def isBlank (s : String) : Bool := s.data.all (fun c => c.isWhitespace)

/-- `content_str.strip()` as a character list (used by the PDF salvage
path's length test). -/
def pyStrip (s : String) : List Char :=
  ((s.data.dropWhile Char.isWhitespace).reverse.dropWhile Char.isWhitespace).reverse

/-- What the external PyPDF2 parse did: produced the per-page texts,
or raised — in which case `decoded` is the `utf-8`-with-`ignore`
decoding of the raw bytes that the salvage path inspects. -/
inductive PdfOutcome where
  | pages (texts : List String)
  | failure (decoded : String)
deriving Repr

/-- `DocumentProcessor._extract_pdf_text`: keep the pages whose
extracted text is non-blank (numbered from 1); fall back to the
image-based-PDF placeholder when none survive; on a parse exception,
salvage the decoded bytes when more than 10 stripped characters
remain, otherwise return the unable-to-process placeholder. -/
def extractPdfText (outcome : PdfOutcome) (filename : String) : List Page :=
  match outcome with
  | .pages texts =>
      let pagesContent := (texts.enum.filter (fun p => ¬ isBlank p.2)).map
        (fun p => Page.mk p.2 (p.1 + 1))
      if pagesContent ≠ [] then pagesContent
      else [⟨"PDF processed but no text content could be extracted. This may be an image-based PDF or contain non-text elements.", 1⟩]
  | .failure decoded =>
      if 10 < (pyStrip decoded).length then
        [⟨"PDF extraction failed, but found text content: " ++ decoded, 1⟩]
      else
        [⟨"Unable to process PDF file '" ++ filename
            ++ "'. Please ensure it's a valid PDF with extractable text content.", 1⟩]

/-- `DocumentProcessor._extract_text_content`: the strict utf-8 decode
result, or the error placeholder. -/
def extractTextContent (outcome : Except String String) : List Page :=
  match outcome with
  | .ok text => [⟨text, 1⟩]
  | .error e => [⟨"Error reading text file: " ++ e, 1⟩]

/-- `DocumentProcessor._extract_docx_content`: paragraphs joined with
newlines, or the error placeholder. -/
def extractDocxContent (outcome : Except String (List String)) : List Page :=
  match outcome with
  | .ok paragraphs => [⟨String.intercalate "\n" paragraphs, 1⟩]
  | .error e => [⟨"Error extracting DOCX content: " ++ e, 1⟩]

/-- `DocumentProcessor._extract_csv_content`: the pandas rendering of
the table (shape, columns, truncated row dump — opaque here, it is
produced by the external library), or the error placeholder. -/
def extractCsvContent (outcome : Except String String) : List Page :=
  match outcome with
  | .ok rendered => [⟨rendered, 1⟩]
  | .error e => [⟨"Error processing spreadsheet: " ++ e, 1⟩]

/-- `Path(filename).suffix.lower()` for ordinary filenames: the final
dot-extension, lowercased; empty without a dot. -/
def fileSuffix (filename : String) : String :=
  if filename.data.contains '.' then
    String.mk ('.' :: ((filename.data.reverse.takeWhile (fun c => c ≠ '.')).reverse.map
      Char.toLower))
  else ""

/-- `DocumentProcessor._create_chunks` in the tokenizer-unavailable
configuration (`self.tokenizer = None`), so `_character_based_chunking`
runs; blank text yields no chunks before any chunking happens (that
guard is shared by both configurations).  `none` models the
`ValueError` a non-positive window step would raise. -/
def createChunks (chunkSize chunkOverlap : Nat) (text filename tenantId : String)
    (pageNumber : Nat) : Option (List DocumentChunk) :=
  if isBlank text then some []
  else
    (pythonRangeChunks chunkSize chunkOverlap text.data).map (fun chunksText =>
      chunksText.enum.map (fun p =>
        DocumentChunk.mk (String.mk p.2)
          [("filename", .s filename), ("tenant_id", .s tenantId),
           ("page_number", .n pageNumber), ("chunk_index", .n p.1),
           ("total_chunks", .n chunksText.length),
           ("file_type", .s (fileSuffix filename))]
          (tenantId ++ "_" ++ filename ++ "_" ++ toString pageNumber ++ "_" ++ toString p.1)
          filename pageNumber p.1))

/-- The page loop of `process_file`:
`chunks.extend(self._create_chunks(...))` per extracted page; an
exception (`none`) escapes the whole call. -/
def pagesToChunks (chunkSize chunkOverlap : Nat) (filename tenantId : String) :
    List Page → Option (List DocumentChunk)
  | [] => some []
  | p :: rest =>
      match createChunks chunkSize chunkOverlap p.content filename tenantId p.page with
      | none => none
      | some cs =>
          (pagesToChunks chunkSize chunkOverlap filename tenantId rest).map (cs ++ ·)

/-- The per-call outcomes of the external libraries for the given raw
bytes (PyPDF2, utf-8 decoding, python-docx, pandas). -/
structure ExtractionOutcomes where
  pdf : PdfOutcome
  text : Except String String
  docx : Except String (List String)
  csv : Except String String
deriving Repr

/-- The mime-type dispatch of `DocumentProcessor.process_file`. -/
def extractedPages (oc : ExtractionOutcomes) (filename fileType : String) : List Page :=
  if fileType = "application/pdf" then extractPdfText oc.pdf filename
  else if fileType = "text/plain" then extractTextContent oc.text
  else if fileType
      = "application/vnd.openxmlformats-officedocument.wordprocessingml.document" then
    extractDocxContent oc.docx
  else if fileType = "text/csv" ∨ fileType = "application/vnd.ms-excel" ∨
      fileType = "application/vnd.openxmlformats-officedocument.spreadsheetml.sheet" then
    extractCsvContent oc.csv
  else [⟨"Unsupported file type: " ++ fileType, 1⟩]

/-- `DocumentProcessor.process_file`. -/
def processFile (chunkSize chunkOverlap : Nat) (oc : ExtractionOutcomes)
    (filename fileType tenantId : String) : Option (List DocumentChunk) :=
  pagesToChunks chunkSize chunkOverlap filename tenantId
    (extractedPages oc filename fileType)

theorem createChunks_blank {cs ov : Nat} {text fn tid : String} {pg : Nat}
    (h : isBlank text = true) :
    createChunks cs ov text fn tid pg = some [] := by
  rw [createChunks, if_pos h]

theorem createChunks_nonblank {cs ov : Nat} (hov : ov < cs)
    {text : String} (h : isBlank text = false) (fn tid : String) (pg : Nat) :
    ∃ l, createChunks cs ov text fn tid pg = some l ∧ l ≠ [] := by
  rw [createChunks, if_neg (by simp [h]), pythonRangeChunks, if_pos hov]
  refine ⟨_, rfl, ?_⟩
  have hdata : text.data ≠ [] := by
    intro hd
    rw [isBlank, hd] at h
    exact absurd h (by simp)
  have hchunks := slidingChunks_ne_nil cs (cs - ov - 1) text.data hdata
  intro hmap
  rw [List.map_eq_nil_iff, List.enum_eq_nil] at hmap
  exact hchunks hmap

theorem pagesToChunks_spec (cs ov : Nat) (hov : ov < cs) (fn tid : String) :
    ∀ pages : List Page, ∃ L, pagesToChunks cs ov fn tid pages = some L ∧
      (L ≠ [] ↔ ∃ p ∈ pages, isBlank p.content = false) := by
  intro pages
  induction pages with
  | nil => exact ⟨[], rfl, by simp⟩
  | cons p rest ih =>
      rcases ih with ⟨L, hL, hiff⟩
      cases hb : isBlank p.content with
      | true =>
          refine ⟨L, ?_, ?_⟩
          · rw [pagesToChunks, createChunks_blank hb, hL]
            rfl
          · rw [hiff]
            constructor
            · rintro ⟨q, hq, hqb⟩
              exact ⟨q, List.mem_cons_of_mem _ hq, hqb⟩
            · rintro ⟨q, hq, hqb⟩
              rcases List.mem_cons.mp hq with rfl | hq'
              · rw [hb] at hqb
                cases hqb
              · exact ⟨q, hq', hqb⟩
      | false =>
          rcases createChunks_nonblank hov hb fn tid p.page with ⟨l, hl, hlne⟩
          refine ⟨l ++ L, ?_, ?_⟩
          · rw [pagesToChunks, hl, hL]
            rfl
          · constructor
            · intro _
              exact ⟨p, List.mem_cons_self _ _, hb⟩
            · intro _
              simp [hlne]

/-- **C7** (amended): with the default chunker configuration
(`chunk_overlap < chunk_size`), `process_file` never raises — every
mime type and every extraction outcome produces a chunk list — and the
dispatch always yields at least one extracted page (failures become
placeholder pages; an unrecognized mime type yields exactly the single
`"Unsupported file type: …"` placeholder page, which chunks to at
least one chunk).  A page whose text is empty or whitespace-only
contributes zero chunks, a page with any non-whitespace content at
least one — so the file's chunk list is non-empty exactly when some
extracted page is non-blank, and an empty or whitespace-only text file
produces zero chunks. -/
theorem C7_processFile_graceful (cs ov : Nat) (hov : ov < cs)
    (oc : ExtractionOutcomes) (filename fileType tenantId : String) :
    (∃ chunks, processFile cs ov oc filename fileType tenantId = some chunks ∧
      (chunks ≠ [] ↔ ∃ p ∈ extractedPages oc filename fileType,
        isBlank p.content = false)) ∧
    (extractedPages oc filename fileType ≠ []) ∧
    (fileType ∉ (["application/pdf", "text/plain",
        "application/vnd.openxmlformats-officedocument.wordprocessingml.document",
        "text/csv", "application/vnd.ms-excel",
        "application/vnd.openxmlformats-officedocument.spreadsheetml.sheet"] :
          List String) →
      extractedPages oc filename fileType
          = [⟨"Unsupported file type: " ++ fileType, 1⟩] ∧
      ∃ chunks, processFile cs ov oc filename fileType tenantId = some chunks ∧
        chunks ≠ []) := by
  have hpages := pagesToChunks_spec cs ov hov filename tenantId
    (extractedPages oc filename fileType)
  refine ⟨hpages, ?_, ?_⟩
  · rw [extractedPages]
    split_ifs with h1 h2 h3 h4
    · cases hpdf : oc.pdf with
      | pages texts =>
          simp only [extractPdfText]
          split_ifs with h
          · exact h
          · exact List.cons_ne_nil _ _
      | failure decoded =>
          simp only [extractPdfText]
          split_ifs <;> exact List.cons_ne_nil _ _
    · cases oc.text <;> exact List.cons_ne_nil _ _
    · cases oc.docx <;> exact List.cons_ne_nil _ _
    · cases oc.csv <;> exact List.cons_ne_nil _ _
    · exact List.cons_ne_nil _ _
  · intro hmem
    simp only [List.mem_cons, List.not_mem_nil, or_false, not_or] at hmem
    obtain ⟨hm1, hm2, hm3, hm4, hm5, hm6⟩ := hmem
    have hext : extractedPages oc filename fileType
        = [⟨"Unsupported file type: " ++ fileType, 1⟩] := by
      rw [extractedPages, if_neg hm1, if_neg hm2, if_neg hm3,
        if_neg (by simp [hm4, hm5, hm6])]
    refine ⟨hext, ?_⟩
    rcases hpages with ⟨chunks, hc, hiff⟩
    refine ⟨chunks, hc, hiff.mpr ?_⟩
    refine ⟨⟨"Unsupported file type: " ++ fileType, 1⟩, by rw [hext]; simp, ?_⟩
    rw [isBlank, List.all_eq_false]
    refine ⟨'U', ?_, by decide⟩
    rw [String.data_append]
    exact List.mem_append_left _ (by decide)

/-- The literal claim also asserts every processed file produces at
least one chunk; a `text/plain` file whose bytes decode to the empty
string is processed to zero chunks. -/
theorem C7_counterexample :
    processFile 1000 200 ⟨.pages [], .ok "", .ok [], .ok ""⟩ "empty.txt" "text/plain" "t"
      = some [] := by
  decide

theorem C7_processFile_graceful_witness :
    ((200 : Nat) < 1000) ∧
    ("application/x-unknown" ∉ (["application/pdf", "text/plain",
        "application/vnd.openxmlformats-officedocument.wordprocessingml.document",
        "text/csv", "application/vnd.ms-excel",
        "application/vnd.openxmlformats-officedocument.spreadsheetml.sheet"] :
          List String)) ∧
    (extractedPages ⟨.pages [], .ok "", .ok [], .ok ""⟩ "f.bin" "application/x-unknown"
        = [⟨"Unsupported file type: " ++ "application/x-unknown", 1⟩] ∧
      ∃ chunks, processFile 1000 200 ⟨.pages [], .ok "", .ok [], .ok ""⟩
          "f.bin" "application/x-unknown" "t" = some chunks ∧ chunks ≠ []) :=
  ⟨by decide, by decide,
    (C7_processFile_graceful 1000 200 (by decide) ⟨.pages [], .ok "", .ok [], .ok ""⟩
        "f.bin" "application/x-unknown" "t").2.2 (by decide)⟩

/-- `DocumentInfo` dataclass from `src/storage/tenant_manager.py`
(the wall-clock `upload_date` string is omitted as irrelevant to any
claim). -/
structure DocumentInfo where
  filename : String
  tenantId : String
  fileType : String
  fileSize : Nat
  chunksCreated : Nat
  filePath : String
deriving DecidableEq, Repr

/-- The `TenantInfo` counters `delete_document` recomputes. -/
structure TenantRec where
  documentCount : Nat
  totalChunks : Nat
deriving DecidableEq, Repr

/-- `TenantManager` state: the per-tenant documents catalog, the
tenant records, and the filesystem modelled as the list of paths that
currently exist. -/
structure TMState where
  documents : List (String × List DocumentInfo)
  tenants : List (String × TenantRec)
  fs : List String
deriving DecidableEq, Repr

/-- Delete the first record with the given filename, returning it and
the remaining list (the `for i, doc in enumerate(docs)` search plus
`del self.documents[tenant_id][i]`). -/
def deleteFirstByFilename (filename : String) :
    List DocumentInfo → Option (DocumentInfo × List DocumentInfo)
  | [] => none
  | d :: t =>
      if d.filename = filename then some (d, t)
      else (deleteFirstByFilename filename t).map (fun p => (p.1, d :: p.2))

/-- `TenantManager.delete_document`: find the record; delete the
physical file when it exists (a failure there is caught and only
logged, so the model's removal always succeeds); always remove the
metadata record; recompute the owning tenant's counters; report
`True`.  An absent record reports `False` and changes nothing. -/
def tmDeleteDocument (st : TMState) (tenantId filename : String) : TMState × Bool :=
  match deleteFirstByFilename filename ((lookupA st.documents tenantId).getD []) with
  | none => (st, false)
  | some (doc, rest) =>
      let fs' := if st.fs.contains doc.filePath then st.fs.erase doc.filePath else st.fs
      let tenants' :=
        match lookupA st.tenants tenantId with
        | none => st.tenants
        | some _ =>
            insertA st.tenants tenantId
              ⟨rest.length, (rest.map (fun d => d.chunksCreated)).sum⟩
      (⟨insertA st.documents tenantId rest, tenants', fs'⟩, true)

/-- The `RAGRetriever`'s two stores. -/
structure RetrieverState (V : Type) where
  vectorStore : VectorStore V
  tenantStore : TMState

/-- `RAGRetriever.delete_document`: both deletions are always
performed (each computed before the `and`), and success is their
conjunction. -/
def retrieverDeleteDocument {V : Type} (st : RetrieverState V)
    (tenantId filename : String) : RetrieverState V × Bool :=
  let v := st.vectorStore.removeDocumentsByFilename filename tenantId
  let t := tmDeleteDocument st.tenantStore tenantId filename
  (⟨v.1, t.1⟩, v.2 && t.2)

theorem deleteFirst_spec (fn : String) : ∀ l : List DocumentInfo,
    (∃ d ∈ l, d.filename = fn) →
    ∃ doc rest, deleteFirstByFilename fn l = some (doc, rest) ∧
      doc.filename = fn ∧ rest.length + 1 = l.length ∧
      (rest.filter (fun d => d.filename = fn)).length + 1
        = (l.filter (fun d => d.filename = fn)).length := by
  intro l
  induction l with
  | nil => rintro ⟨d, hd, _⟩; cases hd
  | cons a t ih =>
      rintro ⟨d, hd, hdfn⟩
      by_cases ha : a.filename = fn
      · refine ⟨a, t, ?_, ha, rfl, ?_⟩
        · rw [deleteFirstByFilename, if_pos ha]
        · rw [List.filter_cons, if_pos (by simp [ha])]
          rfl
      · have hmem : ∃ d ∈ t, d.filename = fn := by
          rcases List.mem_cons.mp hd with rfl | hd'
          · exact absurd hdfn ha
          · exact ⟨d, hd', hdfn⟩
        rcases ih hmem with ⟨doc, rest, h1, h2, h3, h4⟩
        refine ⟨doc, a :: rest, ?_, h2, by simp [← h3], ?_⟩
        · rw [deleteFirstByFilename, if_neg ha, h1]
          rfl
        · rw [List.filter_cons, List.filter_cons, if_neg (by simp [ha]),
            if_neg (by simp [ha])]
          exact h4

/-- **C8**: `RAGRetriever.delete_document` always performs both the
vector-index removal and the tenant-store deletion and reports success
exactly when both succeed; and when the tenant's catalog holds a
record for the filename, the tenant store's `delete_document` removes
that record and reports success whether or not the backing byte blob
exists on disk — an absent blob leaves the filesystem untouched
instead of failing. -/
theorem C8_delete_document (V : Type) (st : RetrieverState V) (tid fn : String)
    (docs : List DocumentInfo)
    (hdocs : lookupA st.tenantStore.documents tid = some docs)
    (hmem : ∃ d ∈ docs, d.filename = fn) :
    ((retrieverDeleteDocument st tid fn).1.vectorStore
        = (st.vectorStore.removeDocumentsByFilename fn tid).1) ∧
    ((retrieverDeleteDocument st tid fn).1.tenantStore
        = (tmDeleteDocument st.tenantStore tid fn).1) ∧
    ((retrieverDeleteDocument st tid fn).2 = true ↔
      ((st.vectorStore.removeDocumentsByFilename fn tid).2 = true ∧
        (tmDeleteDocument st.tenantStore tid fn).2 = true)) ∧
    (tmDeleteDocument st.tenantStore tid fn).2 = true ∧
    (∃ doc rest, deleteFirstByFilename fn docs = some (doc, rest) ∧
      doc.filename = fn ∧
      lookupA ((tmDeleteDocument st.tenantStore tid fn).1).documents tid = some rest ∧
      rest.length + 1 = docs.length ∧
      (rest.filter (fun d => d.filename = fn)).length + 1
        = (docs.filter (fun d => d.filename = fn)).length ∧
      (doc.filePath ∉ st.tenantStore.fs →
        ((tmDeleteDocument st.tenantStore tid fn).1).fs = st.tenantStore.fs)) := by
  rcases deleteFirst_spec fn docs hmem with ⟨doc, rest, h1, h2, h3, h4⟩
  have hdel : tmDeleteDocument st.tenantStore tid fn
      = (⟨insertA st.tenantStore.documents tid rest,
          (match lookupA st.tenantStore.tenants tid with
           | none => st.tenantStore.tenants
           | some _ =>
               insertA st.tenantStore.tenants tid
                 ⟨rest.length, (rest.map (fun d => d.chunksCreated)).sum⟩),
          (if st.tenantStore.fs.contains doc.filePath
           then st.tenantStore.fs.erase doc.filePath
           else st.tenantStore.fs)⟩, true) := by
    rw [tmDeleteDocument, hdocs]
    show (match deleteFirstByFilename fn docs with
      | none => (st.tenantStore, false)
      | some (doc, rest) => _) = _
    rw [h1]
  refine ⟨rfl, rfl, iff_of_eq (Bool.and_eq_true _ _), by rw [hdel], doc, rest, h1, h2, ?_, h3, h4, ?_⟩
  · rw [hdel]
    show lookupA (insertA st.tenantStore.documents tid rest) tid = some rest
    rw [lookupA_insertA, if_pos rfl]
  · intro hpath
    rw [hdel]
    show (if st.tenantStore.fs.contains doc.filePath
        then st.tenantStore.fs.erase doc.filePath
        else st.tenantStore.fs) = st.tenantStore.fs
    rw [if_neg ?_]
    intro hcontains
    exact hpath (by simpa using hcontains)

/-- Concrete tenant-store state for the C8 witness: one record whose
`file_path` is not on disk (`fs` empty). -/
def wDoc : DocumentInfo := ⟨"a.txt", "t", "text/plain", 5, 2, "tenant_storage/t/a.txt"⟩

def wTM : TMState := ⟨[("t", [wDoc])], [("t", ⟨1, 2⟩)], []⟩

def wRS : RetrieverState Nat := ⟨wVS2, wTM⟩

theorem C8_delete_document_witness :
    (lookupA wRS.tenantStore.documents "t" = some [wDoc]) ∧
    (∃ d ∈ [wDoc], d.filename = "a.txt") ∧
    (((retrieverDeleteDocument wRS "t" "a.txt").1.vectorStore
        = (wRS.vectorStore.removeDocumentsByFilename "a.txt" "t").1) ∧
    ((retrieverDeleteDocument wRS "t" "a.txt").1.tenantStore
        = (tmDeleteDocument wRS.tenantStore "t" "a.txt").1) ∧
    ((retrieverDeleteDocument wRS "t" "a.txt").2 = true ↔
      ((wRS.vectorStore.removeDocumentsByFilename "a.txt" "t").2 = true ∧
        (tmDeleteDocument wRS.tenantStore "t" "a.txt").2 = true)) ∧
    (tmDeleteDocument wRS.tenantStore "t" "a.txt").2 = true ∧
    (∃ doc rest, deleteFirstByFilename "a.txt" [wDoc] = some (doc, rest) ∧
      doc.filename = "a.txt" ∧
      lookupA ((tmDeleteDocument wRS.tenantStore "t" "a.txt").1).documents "t"
          = some rest ∧
      rest.length + 1 = ([wDoc] : List DocumentInfo).length ∧
      (rest.filter (fun d => d.filename = "a.txt")).length + 1
        = (([wDoc] : List DocumentInfo).filter (fun d => d.filename = "a.txt")).length ∧
      (doc.filePath ∉ wRS.tenantStore.fs →
        ((tmDeleteDocument wRS.tenantStore "t" "a.txt").1).fs
          = wRS.tenantStore.fs))) :=
  ⟨by decide, by decide,
    C8_delete_document Nat wRS "t" "a.txt" [wDoc] (by decide) (by decide)⟩

theorem searchGo_length_le (meta : List ChunkMeta)
    (filt : Option (List (String × FilterVal))) (k : Nat) :
    ∀ (neighbors : List (ℚ × Int)) (acc : List SearchResult),
      acc.length ≤ (searchGo meta filt k neighbors acc).length := by
  intro neighbors
  induction neighbors with
  | nil => intro acc; exact le_rfl
  | cons p rest ih =>
      intro acc
      obtain ⟨score, idx⟩ := p
      by_cases h : 0 ≤ idx ∧ idx.toNat < meta.length
      · simp only [searchGo]
        rw [dif_pos h]
        have hlen : ∀ (acc' : List SearchResult) (r' : SearchResult),
            acc'.length ≤ (appendIfMatches filt acc' r').length := by
          intro acc' r'
          cases filt with
          | none => simp [appendIfMatches]
          | some f =>
              rw [appendIfMatches]
              split
              · simp
              · exact le_rfl
        split
        · exact hlen _ _
        · exact le_trans (hlen _ _) (ih _)
      · simp only [searchGo]
        rw [dif_neg h]
        exact ih _

theorem searchGo_ne_nil_none (meta : List ChunkMeta) (k : Nat) :
    ∀ (neighbors : List (ℚ × Int)) (acc : List SearchResult),
      (∃ p ∈ neighbors, 0 ≤ p.2 ∧ p.2.toNat < meta.length) →
      searchGo meta none k neighbors acc ≠ [] := by
  intro neighbors
  induction neighbors with
  | nil =>
      rintro acc ⟨p, hp, _⟩
      cases hp
  | cons q rest ih =>
      rintro acc ⟨p, hp, hq1, hq2⟩
      obtain ⟨score, idx⟩ := q
      by_cases h : 0 ≤ idx ∧ idx.toNat < meta.length
      · simp only [searchGo]
        rw [dif_pos h]
        have hne : appendIfMatches none acc (mkResult (meta.get ⟨idx.toNat, h.2⟩) score)
            ≠ [] := by
          simp [appendIfMatches]
        split
        · exact hne
        · intro hnil
          have hlen := searchGo_length_le meta none k rest
            (appendIfMatches none acc (mkResult (meta.get ⟨idx.toNat, h.2⟩) score))
          rw [hnil] at hlen
          simp only [List.length_nil, Nat.le_zero] at hlen
          exact hne (List.length_eq_zero.mp hlen)
      · rcases List.mem_cons.mp hp with rfl | hp'
        · exact absurd ⟨hq1, hq2⟩ h
        · simp only [searchGo]
          rw [dif_neg h]
          exact ih acc ⟨p, hp', hq1, hq2⟩

theorem search_ne_nil {V : Type} (vs : VectorStore V) (tid : String) (k : Nat)
    (neighbors : List (ℚ × Int)) (st : TenantState V)
    (hma : vs.modelAvailable = true) (hl : lookupA vs.tenants tid = some st)
    (hn : ∃ p ∈ neighbors, 0 ≤ p.2 ∧ p.2.toNat < st.metadata.length) :
    vs.search tid k none neighbors ≠ [] := by
  have hmf : ¬ (vs.modelAvailable = false) := by simp [hma]
  simp only [VectorStore.search, if_neg hmf, hl]
  exact searchGo_ne_nil_none st.metadata k neighbors [] hn

/-- `result["metadata"].get("page_number", 1)` (as used when
formatting citations; non-integer values never occur). -/
def metaPageNum (m : List (String × MVal)) : Int :=
  match lookupA m "page_number" with
  | some (.n v) => v
  | _ => 1

/-- `result["metadata"].get("chunk_index", 0)`. -/
def metaChunkIdx (m : List (String × MVal)) : Int :=
  match lookupA m "chunk_index" with
  | some (.n v) => v
  | _ => 0

/-- One citation entry of `retrieve_context`'s `sources` list. -/
structure SourceInfo where
  filename : String
  page : Int
  chunkIndex : Int
  score : ℚ
  hybridScore : ℚ
deriving DecidableEq, Repr

/-- The result dict of `RAGRetriever.retrieve_context`. -/
structure ContextResult where
  context : String
  sources : List SourceInfo
  chunksFound : Nat
  error : Option String
deriving DecidableEq, Repr

/-- The per-hit context header
`[Source {i+1}: {source}]` (+ ` (Page {n})` when the metadata carries a
truthy page number). -/
def formatChunkHeader (i : Nat) (r : SearchResult) : String :=
  let base := "[Source " ++ toString (i + 1) ++ ": " ++ r.source ++ "]"
  match lookupA r.metadata "page_number" with
  | some (.n v) => if v ≠ 0 then base ++ " (Page " ++ toString v ++ ")" else base
  | _ => base

/-- `RAGRetriever.retrieve_context` on the hybrid path
(`use_hybrid=True`, the default at every call site): any exception
from the search — notably the empty-query `ZeroDivisionError` — is
absorbed by the `except` clause into an empty-context error result;
no hits yield the empty-context success result; otherwise the hits
are formatted into the joined context block and citation list. -/
def retrieveContext {V : Type} (vs : VectorStore V) (query tenantId : String)
    (k : Nat) (filt : Option (List (String × FilterVal))) (keywordWeight : ℚ)
    (neighbors : List (ℚ × Int)) : ContextResult :=
  match vs.hybridSearch query tenantId k filt keywordWeight neighbors with
  | .error e => ⟨"", [], 0, some e⟩
  | .ok [] => ⟨"", [], 0, none⟩
  | .ok (r :: rs) =>
      let results := r :: rs
      let sources := results.map (fun x =>
        SourceInfo.mk x.base.source (metaPageNum x.base.metadata)
          (metaChunkIdx x.base.metadata) x.base.score x.hybridScore)
      let parts := results.enum.map (fun p =>
        formatChunkHeader p.1 p.2.base ++ "\n" ++ p.2.base.content)
      ⟨String.intercalate "\n\n---\n\n" parts, sources, results.length, none⟩

/-- **C9**: for a tenant whose index holds at least one entry (the
nearest-neighbour call returns at least one valid position, as FAISS
guarantees on a nonempty index) and an available embedding model, a
query that tokenizes to no words makes `hybrid_search` raise
`ZeroDivisionError` from the keyword-score division instead of
returning a ranked list; `retrieve_context` absorbs exactly this into
an empty-context error result. -/
theorem C9_empty_query_division (V : Type) (vs : VectorStore V)
    (query tid : String) (k : Nat) (w : ℚ) (neighbors : List (ℚ × Int))
    (st : TenantState V)
    (hma : vs.modelAvailable = true)
    (hl : lookupA vs.tenants tid = some st)
    (hq : pyWords query = [])
    (hn : ∃ p ∈ neighbors, 0 ≤ p.2 ∧ p.2.toNat < st.metadata.length) :
    vs.hybridSearch query tid k none w neighbors
        = .error "ZeroDivisionError: division by zero" ∧
    retrieveContext vs query tid k none w neighbors
        = ⟨"", [], 0, some "ZeroDivisionError: division by zero"⟩ := by
  have hne := search_ne_nil vs tid (k * 2) neighbors st hma hl hn
  have herr : vs.hybridSearch query tid k none w neighbors
      = .error "ZeroDivisionError: division by zero" := by
    cases hsem : vs.search tid (k * 2) none neighbors with
    | nil => exact absurd hsem hne
    | cons r rs =>
        simp [VectorStore.hybridSearch, hsem, hq]
  refine ⟨herr, ?_⟩
  simp only [retrieveContext, herr]

theorem C9_empty_query_division_witness :
    (wVS2.modelAvailable = true) ∧
    (lookupA wVS2.tenants "t" = some wSt2) ∧
    (pyWords "  " = []) ∧
    (∃ p ∈ [((1 : ℚ), (0 : Int))], 0 ≤ p.2 ∧ p.2.toNat < wSt2.metadata.length) ∧
    (wVS2.hybridSearch "  " "t" 1 none (3 / 10) [((1 : ℚ), (0 : Int))]
        = .error "ZeroDivisionError: division by zero" ∧
      retrieveContext wVS2 "  " "t" 1 none (3 / 10) [((1 : ℚ), (0 : Int))]
        = ⟨"", [], 0, some "ZeroDivisionError: division by zero"⟩) :=
  ⟨rfl, by decide, by decide, by decide,
    C9_empty_query_division Nat wVS2 "  " "t" 1 (3 / 10) [((1 : ℚ), (0 : Int))] wSt2
      rfl (by decide) (by decide) (by decide)⟩

theorem matchesFilter_filename_false (r : SearchResult) (fv : FilterVal) :
    matchesFilter r [("filename", fv)] = false := rfl

theorem searchGo_all_false (meta : List ChunkMeta)
    (f : List (String × FilterVal)) (k : Nat)
    (hf : ∀ r : SearchResult, matchesFilter r f = false) :
    ∀ (neighbors : List (ℚ × Int)) (acc : List SearchResult),
      searchGo meta (some f) k neighbors acc = acc := by
  intro neighbors
  induction neighbors with
  | nil => intro acc; rfl
  | cons p rest ih =>
      intro acc
      obtain ⟨score, idx⟩ := p
      by_cases h : 0 ≤ idx ∧ idx.toNat < meta.length
      · simp only [searchGo]
        rw [dif_pos h]
        have hacc : appendIfMatches (some f) acc
            (mkResult (meta.get ⟨idx.toNat, h.2⟩) score) = acc := by
          simp [appendIfMatches, hf]
        rw [hacc]
        split
        · rfl
        · exact ih acc
      · simp only [searchGo]
        rw [dif_neg h]
        exact ih acc

theorem searchGo_passes_filter (meta : List ChunkMeta)
    (f : List (String × FilterVal)) (k : Nat) :
    ∀ (neighbors : List (ℚ × Int)) (acc : List SearchResult)
      (r : SearchResult), r ∈ searchGo meta (some f) k neighbors acc →
      r ∈ acc ∨ matchesFilter r f = true := by
  intro neighbors
  induction neighbors with
  | nil => exact fun acc r hr => Or.inl hr
  | cons p rest ih =>
      intro acc r hr
      obtain ⟨score, idx⟩ := p
      by_cases h : 0 ≤ idx ∧ idx.toNat < meta.length
      · simp only [searchGo] at hr
        rw [dif_pos h] at hr
        have hstep : ∀ r', r ∈ appendIfMatches (some f) acc r' →
            r ∈ acc ∨ matchesFilter r f = true := by
          intro r' hr'
          by_cases hm : matchesFilter r' f
          · simp only [appendIfMatches, hm, if_true] at hr'
            rcases List.mem_append.mp hr' with h' | h'
            · exact Or.inl h'
            · rcases List.mem_singleton.mp h' with rfl
              exact Or.inr hm
          · simp only [appendIfMatches, hm, Bool.false_eq_true, if_false] at hr'
            exact Or.inl hr'
        split at hr
        · exact hstep _ hr
        · rcases ih _ _ hr with h' | h'
          · exact hstep _ h'
          · exact Or.inr h'
      · simp only [searchGo] at hr
        rw [dif_neg h] at hr
        exact ih _ _ hr

/-- Best score of a grouped document's chunk list:
`result.get("hybrid_score", result["score"])` of the first hit seen
for that filename. -/
def groupBestScore (l : List HybridResult) : ℚ :=
  match l with
  | [] => 0
  | r :: _ => r.hybridScore

/-- `RAGRetriever.search_documents`: with a `file_filter` it builds a
`{"filename": …}` metadata filter, runs `hybrid_search`, groups the
hits by source filename (insertion order, chunks in hit order — the
per-chunk preview truncation is elided), and sorts the groups by best
score descending. -/
def searchDocuments {V : Type} (vs : VectorStore V) (query tenantId : String)
    (fileFilter : Option String) (k : Nat) (neighbors : List (ℚ × Int)) :
    Except String (List (String × List HybridResult)) :=
  let metadataFilter : Option (List (String × FilterVal)) :=
    match fileFilter with
    | some ff => some [("filename", .one (.str ff))]
    | none => none
  (vs.hybridSearch query tenantId k metadataFilter (3 / 10) neighbors).map
    (fun results =>
      let grouped := results.foldl (fun acc r =>
        match lookupA acc r.base.source with
        | some chunks => insertA acc r.base.source (chunks ++ [r])
        | none => insertA acc r.base.source [r]) []
      grouped.mergeSort (fun a b => decide (groupBestScore b.2 ≤ groupBestScore a.2)))

/-- **C10**: metadata filters test only the top-level result fields
(`chunk_id`, `content`, `source`, `metadata`, `score`), never the
nested per-chunk metadata map: a filter keyed `"filename"` matches no
result, so `search` under it returns nothing and `search_documents`
with a `file_filter` returns the empty list for every query and every
neighbour answer; a filter keyed `"source"` restricts the hits to the
named files as intended. -/
theorem C10_filter_keys (V : Type) (vs : VectorStore V) (query tid : String)
    (k : Nat) (neighbors : List (ℚ × Int)) (ff : String) :
    (∀ (r : SearchResult) (fv : FilterVal),
      matchesFilter r [("filename", fv)] = false) ∧
    (vs.search tid k (some [("filename", FilterVal.one (.str ff))]) neighbors = []) ∧
    (searchDocuments vs query tid (some ff) k neighbors = .ok []) ∧
    (∀ names : List PyVal,
      ∀ r ∈ vs.search tid k (some [("source", FilterVal.many names)]) neighbors,
        PyVal.str r.source ∈ names) := by
  have hsearch : ∀ (k' : Nat),
      vs.search tid k' (some [("filename", FilterVal.one (.str ff))]) neighbors = [] := by
    intro k'
    by_cases hma : vs.modelAvailable = false
    · simp only [VectorStore.search, if_pos hma]
    · cases hl : lookupA vs.tenants tid with
      | none => simp only [VectorStore.search, if_neg hma, hl]
      | some st =>
          simp only [VectorStore.search, if_neg hma, hl]
          exact searchGo_all_false st.metadata _ k'
            (fun r => matchesFilter_filename_false r _) neighbors []
  refine ⟨fun r fv => matchesFilter_filename_false r fv, hsearch k, ?_, ?_⟩
  · have hhs : vs.hybridSearch query tid k
        (some [("filename", FilterVal.one (.str ff))]) (3 / 10) neighbors = .ok [] := by
      simp only [VectorStore.hybridSearch, hsearch (k * 2)]
    simp only [searchDocuments, hhs]
    simp [List.mergeSort_nil, Except.map]
  · intro names r hr
    by_cases hma : vs.modelAvailable = false
    · simp only [VectorStore.search, if_pos hma] at hr
      exact absurd hr (List.not_mem_nil r)
    · cases hl : lookupA vs.tenants tid with
      | none =>
          simp only [VectorStore.search, if_neg hma, hl] at hr
          exact absurd hr (List.not_mem_nil r)
      | some st =>
          simp only [VectorStore.search, if_neg hma, hl] at hr
          rcases searchGo_passes_filter st.metadata _ k neighbors [] r hr with h | h
          · exact absurd h (List.not_mem_nil r)
          · simp only [matchesFilter, List.all_cons, List.all_nil, Bool.and_true] at h
            rw [show resultLookup r "source" = some (.str r.source) from rfl] at h
            simpa using h

theorem C10_filter_keys_witness :
    (searchDocuments wVS2 "hello" "t" (some "a.txt") 5 [((1 : ℚ), (0 : Int))]
        = .ok []) ∧
    ((mkResult wMetaA 1)
        ∈ wVS2.search "t" 5 (some [("source", FilterVal.many [.str "a.txt"])])
          [((1 : ℚ), (0 : Int))]) ∧
    (PyVal.str (mkResult wMetaA 1).source ∈ ([.str "a.txt"] : List PyVal)) :=
  ⟨(C10_filter_keys Nat wVS2 "hello" "t" 5 [((1 : ℚ), (0 : Int))] "a.txt").2.2.1,
    by decide,
    (C10_filter_keys Nat wVS2 "hello" "t" 5 [((1 : ℚ), (0 : Int))] "a.txt").2.2.2
      [.str "a.txt"] (mkResult wMetaA 1) (by decide)⟩

end AIChatbot
